import Mathlib

/-!
Verification development for the `web-to-markdown` converter
(`src/WebToMarkdownConverter.ts`).

The TypeScript source is shallowly embedded: strings are `List Char` /
`String`, the DOM is an explicit tree, and every JavaScript regex pass is
translated into an executable scanner with the same semantics.  External
collaborators that are not part of the repository (the HTML parser, the
`turndown` rendering engine and its GFM plugin, `axios`, `Date`) are
modelled explicitly; their definitions carry comments saying so.
-/

set_option maxHeartbeats 1000000
set_option maxRecDepth 100000

namespace WebToMarkdown

/-! ## JavaScript character classes

`jsWs` is the JavaScript regex class `\s` (also the set trimmed by
`String.prototype.trim`): ASCII whitespace plus the Unicode space
separators, NBSP, BOM and the line separators. -/

def jsWs (c : Char) : Bool :=
  c == ' ' || c == '\t' || c == '\n' || c == '\r' ||
  c == '\x0b' || c == '\x0c' ||
  c.toNat == 0xA0 || c.toNat == 0x1680 ||
  (0x2000 ≤ c.toNat && c.toNat ≤ 0x200A) ||
  c.toNat == 0x2028 || c.toNat == 0x2029 || c.toNat == 0x202F ||
  c.toNat == 0x205F || c.toNat == 0x3000 || c.toNat == 0xFEFF

/-- Line terminators recognised by the `m` (multiline) regex flag: `^`
matches after any of these characters. -/
def isLT (c : Char) : Bool :=
  c == '\n' || c == '\r' || c.toNat == 0x2028 || c.toNat == 0x2029

/-- The character class `[ \t]` used by the tidy pass `^[ \t]+`. -/
def isSpTab (c : Char) : Bool :=
  c == ' ' || c == '\t'

/-! ## Generic string helpers (JavaScript semantics) -/

/-- Left trim over an arbitrary character class. -/
def trimLeftP (p : Char → Bool) (l : List Char) : List Char :=
  l.dropWhile p

/-- Right trim over an arbitrary character class. -/
def trimRightP (p : Char → Bool) (l : List Char) : List Char :=
  (l.reverse.dropWhile p).reverse

/-- JavaScript `String.prototype.trim`. -/
def jsTrim (l : List Char) : List Char :=
  trimRightP jsWs (trimLeftP jsWs l)

/-- Split a list at the first occurrence of character `ch`: returns the
part strictly before it and the part strictly after it. -/
def splitAtFirst (ch : Char) : List Char → Option (List Char × List Char)
  | [] => none
  | c :: r =>
    if c == ch then some ([], r)
    else
      match splitAtFirst ch r with
      | some (b, a) => some (c :: b, a)
      | none => none

/-- Collapse every run of JavaScript whitespace to a single space
(the regex replace `/\s+/g → ' '`).  The fuel argument only serves to
make the recursion structural (each step consumes at least one
character, so `l.length` fuel always suffices; see `collapseWsGo_fuel`).
If fuel would run out the remaining input is returned unchanged. -/
def collapseWsGo : Nat → List Char → List Char
  | _, [] => []
  | 0, l => l
  | fuel + 1, c :: r =>
    if jsWs c then ' ' :: collapseWsGo fuel (r.dropWhile jsWs)
    else c :: collapseWsGo fuel r

def collapseWs (l : List Char) : List Char := collapseWsGo l.length l

/-! ## `tidyMarkdown` (source lines 335-353)

The source applies four passes in order:

1. `markdown.replace(/\[\s*([^\]\n]+?)\s*\]\s*\(\s*([^)]+)\s*\)/g, ...)`
   rewriting every bracket-link with the text whitespace-collapsed and
   trimmed and the URL with all whitespace removed;
2. `replace(/\n{3,}/g, '\n\n')`;
3. `replace(/^[ \t]+/gm, '')`;
4. `.trim()`.

Pass 1 is embedded as a left-to-right scanner.  Because the link-text
class `[^\]\n]` excludes `]` and the URL class `[^)]` excludes `)`, a
match starting at a given `[` must use the first `]` after it and the
first `)` after the `(`; the regex matches there exactly when the
bracket content has at least one non-newline character and its trim
contains no newline, and the parenthesis content is nonempty.  The
captured text (after the replacement's own collapse-and-trim) is the
trimmed bracket content with whitespace runs collapsed, and the captured
URL (after its whitespace strip) is the parenthesis content with all
whitespace removed. -/

def linkRepl (c d : List Char) : List Char :=
  '[' :: collapseWs (jsTrim c) ++ ']' :: '(' :: (d.filter fun x => !jsWs x) ++ [')']

/-- Attempt the link regex match immediately after an opening `[`.
Returns the replacement text and the remainder after the match. -/
def tryLink (rest : List Char) : Option (List Char × List Char) :=
  match splitAtFirst ']' rest with
  | none => none
  | some (c, r1) =>
    if (c.any fun x => x != '\n') && ((jsTrim c).all fun x => x != '\n') then
      match r1.dropWhile jsWs with
      | [] => none
      | p :: r3 =>
        if p == '(' then
          match splitAtFirst ')' r3 with
          | none => none
          | some (d, r4) =>
            if d.isEmpty then none else some (linkRepl c d, r4)
        else none
    else none

/-- Pass 1 of `tidyMarkdown`: the global link-repair replace.  As with
`collapseWsGo`, the fuel argument merely makes the recursion structural:
each step consumes at least one input character (`tryLink_length`), so
`l.length` fuel always suffices (`linkFixGo_fuel`). -/
def linkFixGo : Nat → List Char → List Char
  | _, [] => []
  | 0, l => l
  | fuel + 1, c :: rest =>
    if c == '[' then
      match tryLink rest with
      | some (repl, r4) => repl ++ linkFixGo fuel r4
      | none => '[' :: linkFixGo fuel rest
    else c :: linkFixGo fuel rest

def linkFixAux (l : List Char) : List Char := linkFixGo l.length l

/-- Pass 2 of `tidyMarkdown`: `replace(/\n{3,}/g, '\n\n')`, embedded with
a counter of immediately preceding newlines (a run of three or more
newlines keeps exactly its first two). -/
def cnlGo : Nat → List Char → List Char
  | _, [] => []
  | n, c :: r =>
    if c == '\n' then
      if n ≥ 2 then cnlGo n r else '\n' :: cnlGo (n + 1) r
    else c :: cnlGo 0 r

def collapseNL (l : List Char) : List Char := cnlGo 0 l

/-- Pass 3 of `tidyMarkdown`: `replace(/^[ \t]+/gm, '')`.  The flag is
true at the start of the string and directly after a line terminator
(and stays true while spaces and tabs are being stripped). -/
def siGo : Bool → List Char → List Char
  | _, [] => []
  | atS, c :: r =>
    if atS && isSpTab c then siGo true r
    else c :: siGo (isLT c) r

def stripIndent (l : List Char) : List Char := siGo true l

/-- The `tidyMarkdown` method of `WebToMarkdownConverter` (lines
335-353): link repair, newline-run collapse, per-line indentation strip,
final trim. -/
def tidyList (l : List Char) : List Char :=
  jsTrim (stripIndent (collapseNL (linkFixAux l)))

def tidyMarkdown (s : String) : String :=
  String.mk (tidyList s.data)

/-! ## Invariants used for the idempotence analysis of `tidyMarkdown`

`ntGo n l` scans `l` assuming `n` newlines directly precede it and
answers whether the combined text avoids three consecutive newlines.
`stGo b l` answers whether `l` contains no space/tab directly at a line
start (`b` says whether the scan begins at a line start).  `wlGo st l`
answers whether `l` contains no nonempty line made only of spaces and
tabs (the lines that pass 3 erases, which is what breaks idempotence). -/

def ntGo : Nat → List Char → Bool
  | _, [] => true
  | n, c :: r =>
    if c == '\n' then
      if n ≥ 2 then false else ntGo (n + 1) r
    else ntGo 0 r

def noTriple (l : List Char) : Bool := ntGo 0 l

def stGo : Bool → List Char → Bool
  | _, [] => true
  | b, c :: r =>
    if b && isSpTab c then false else stGo (isLT c) r

def strippedP (l : List Char) : Bool := stGo true l

inductive LineSt where
  | start
  | wsOnly
  | content
deriving DecidableEq

def wlGo : LineSt → List Char → Bool
  | st, [] => if st = .wsOnly then false else true
  | st, c :: r =>
    if isLT c then
      if st = .wsOnly then false else wlGo .start r
    else if isSpTab c then
      wlGo (if st = .content then .content else .wsOnly) r
    else wlGo .content r

/-- The input has no nonempty line consisting solely of spaces and
tabs. -/
def noWsOnlyLine (l : List Char) : Bool := wlGo .start l

/-! ## MD5 (Node `crypto` collaborator)

Modelled from the spec: the data-URL image rule derives its placeholder
URL from `createHash('md5').update(src).digest('hex')` (source lines
60-62); the spec (§4.4) requires a fixed, documented content hash.  This
is the standard MD5 algorithm (RFC 1321) over the UTF-8 bytes of the
input, as Node's `crypto` computes it, with 32-bit words embedded as
`Nat` reduced modulo `2 ^ 32`. -/

def md5K : List Nat :=
  [3614090360, 3905402710, 606105819, 3250441966, 4118548399, 1200080426, 2821735955, 4249261313,
   1770035416, 2336552879, 4294925233, 2304563134, 1804603682, 4254626195, 2792965006, 1236535329,
   4129170786, 3225465664, 643717713, 3921069994, 3593408605, 38016083, 3634488961, 3889429448,
   568446438, 3275163606, 4107603335, 1163531501, 2850285829, 4243563512, 1735328473, 2368359562,
   4294588738, 2272392833, 1839030562, 4259657740, 2763975236, 1272893353, 4139469664, 3200236656,
   681279174, 3936430074, 3572445317, 76029189, 3654602809, 3873151461, 530742520, 3299628645,
   4096336452, 1126891415, 2878612391, 4237533241, 1700485571, 2399980690, 4293915773, 2240044497,
   1873313359, 4264355552, 2734768916, 1309151649, 4149444226, 3174756917, 718787259, 3951481745]

def md5S : List Nat :=
  [7, 12, 17, 22, 7, 12, 17, 22, 7, 12, 17, 22, 7, 12, 17, 22,
   5, 9, 14, 20, 5, 9, 14, 20, 5, 9, 14, 20, 5, 9, 14, 20,
   4, 11, 16, 23, 4, 11, 16, 23, 4, 11, 16, 23, 4, 11, 16, 23,
   6, 10, 15, 21, 6, 10, 15, 21, 6, 10, 15, 21, 6, 10, 15, 21]

def mask32 : Nat := 4294967295

def bnot32 (x : Nat) : Nat := mask32 - x % 4294967296

def rotl32 (x s : Nat) : Nat :=
  (x % 4294967296) * 2 ^ s % 4294967296 + x % 4294967296 / 2 ^ (32 - s)

def md5F (i b c d : Nat) : Nat × Nat :=
  if i < 16 then (b &&& c ||| bnot32 b &&& d, i)
  else if i < 32 then (d &&& b ||| bnot32 d &&& c, (5 * i + 1) % 16)
  else if i < 48 then (b ^^^ c ^^^ d, (3 * i + 5) % 16)
  else (c ^^^ (b ||| bnot32 d), 7 * i % 16)

def md5Round (m : List Nat) (st : Nat × Nat × Nat × Nat) (i : Nat) :
    Nat × Nat × Nat × Nat :=
  match st with
  | (a, b, c, d) =>
    let fg := md5F i b c d
    let f2 := (fg.1 + a + md5K.getD i 0 + m.getD fg.2 0) % 4294967296
    (d, (b + rotl32 f2 (md5S.getD i 0)) % 4294967296, b, c)

def md5Block (st : Nat × Nat × Nat × Nat) (m : List Nat) : Nat × Nat × Nat × Nat :=
  match st, (List.range 64).foldl (md5Round m) st with
  | (a0, b0, c0, d0), (a, b, c, d) =>
    ((a0 + a) % 4294967296, (b0 + b) % 4294967296,
     (c0 + c) % 4294967296, (d0 + d) % 4294967296)

/-- Little-endian byte decomposition. -/
def toLEBytes (n : Nat) (k : Nat) : List Nat :=
  (List.range k).map fun i => n / 2 ^ (8 * i) % 256

def bytesToWordsLE : List Nat → List Nat
  | b0 :: b1 :: b2 :: b3 :: rest =>
    (b0 + b1 * 256 + b2 * 65536 + b3 * 16777216) :: bytesToWordsLE rest
  | _ => []

def chunk64Go : Nat → List Nat → List (List Nat)
  | _, [] => []
  | 0, _ => []
  | f + 1, l => l.take 64 :: chunk64Go f (l.drop 64)

def md5Pad (bytes : List Nat) : List Nat :=
  let len := bytes.length
  let padLen := (119 - len % 64) % 64
  bytes ++ 128 :: List.replicate padLen 0 ++ toLEBytes (len * 8 % 2 ^ 64) 8

def hexDigit (n : Nat) : Char :=
  if n < 10 then Char.ofNat (48 + n) else Char.ofNat (87 + n)

def byteToHex (b : Nat) : List Char := [hexDigit (b / 16 % 16), hexDigit (b % 16)]

def charUtf8 (c : Char) : List Nat :=
  let n := c.toNat
  if n < 128 then [n]
  else if n < 2048 then [192 + n / 64, 128 + n % 64]
  else if n < 65536 then [224 + n / 4096, 128 + n / 64 % 64, 128 + n % 64]
  else [240 + n / 262144, 128 + n / 4096 % 64, 128 + n / 64 % 64, 128 + n % 64]

def utf8Bytes (s : String) : List Nat := s.data.flatMap charUtf8

def md5hex (s : String) : String :=
  let padded := md5Pad (utf8Bytes s)
  let blocks := (chunk64Go padded.length padded).map bytesToWordsLE
  match blocks.foldl md5Block (1732584193, 4023233417, 2562383102, 271733878) with
  | (a, b, c, d) =>
    String.mk ((toLEBytes a 4 ++ toLEBytes b 4 ++ toLEBytes c 4 ++ toLEBytes d 4).flatMap byteToHex)

/-! ## String search helpers -/

def startsWithL : List Char → List Char → Bool
  | [], _ => true
  | _ :: _, [] => false
  | p :: ps, c :: cs => p == c && startsWithL ps cs

def containsSub (pat : List Char) : List Char → Bool
  | [] => startsWithL pat []
  | c :: cs => startsWithL pat (c :: cs) || containsSub pat cs

/-- JavaScript `String.prototype.includes`. -/
def strContains (s pat : String) : Bool := containsSub pat.data s.data

/-! ## The DOM

The DOM is embedded as a "forest" inductive: a node carries its
children and its following siblings in the same type, mirroring the
first-child/next-sibling pointers of a real DOM and keeping every
traversal structurally recursive (hence computable by the kernel).
`HForest` is the plain parsed tree (as the rendering engine sees it
after re-parsing serialized markup); `IForest` additionally carries a
unique numeric identifier per element, assigned by a preorder pass,
standing in for JavaScript object identity (the cleanup pass keys its
protected set on node identity). -/

inductive HForest where
  | nil
  | text (s : String) (rest : HForest)
  | elem (tag : String) (attrs : List (String × String)) (children rest : HForest)
deriving DecidableEq

inductive IForest where
  | nil
  | text (s : String) (rest : IForest)
  | elem (id : Nat) (tag : String) (attrs : List (String × String)) (children rest : IForest)
deriving DecidableEq

/-- The identity, tag and attributes of an element: everything the
cleanup predicates can observe about a node. -/
structure EInfo where
  id : Nat
  tag : String
  attrs : List (String × String)
deriving DecidableEq

/-- An element handle on the rendering side (rule filters and
replacements see the tag, the attributes and the subtree). -/
structure HElem where
  tag : String
  attrs : List (String × String)
  children : HForest
deriving DecidableEq

/-- An element handle on the converter side: what a `querySelector`
result exposes.  The document itself is the `#document` element. -/
structure IElem where
  info : EInfo
  children : IForest
deriving DecidableEq

/-- `getAttribute`: `none` models JavaScript `null` (attribute absent). -/
def getAttr (attrs : List (String × String)) (name : String) : Option String :=
  (attrs.find? fun p => p.1 == name).map Prod.snd

def HElem.getAttribute (n : HElem) (name : String) : Option String :=
  getAttr n.attrs name

/-! ## HTML parsing (external collaborator)

Modelled from the spec: §1 and §6 treat HTML parsing as an external
capability "that, given markup, returns a navigable document object
exposing tag names, attributes, and text content" (`jsdom` on the
converter side, the engine's own parser on the renderer side).  The
model handles the well-formed fragment language used throughout this
development: tags with optionally double-quoted attributes, text, void
elements, case-sensitive lowercase names; no entity decoding and no
implied-tag insertion (for example no implied `tbody`).  The fuel is the
input length; every step consumes at least one character. -/

def voidTags : List String :=
  ["area", "base", "br", "col", "command", "embed", "hr", "img", "input",
   "keygen", "link", "meta", "param", "source", "track", "wbr"]

def isNameChar (c : Char) : Bool :=
  c.isAlpha || c.isDigit || c == '-' || c == '_'

def isAttrNameChar (c : Char) : Bool :=
  c.isAlpha || c.isDigit || c == '-' || c == '_' || c == ':'

def parseAttrs : Nat → List Char → List (String × String) × List Char × Bool
  | 0, l => ([], l, false)
  | f + 1, l0 =>
    let l := l0.dropWhile jsWs
    match l with
    | [] => ([], [], false)
    | '>' :: r => ([], r, false)
    | '/' :: '>' :: r => ([], r, true)
    | _ =>
      let nm := l.takeWhile isAttrNameChar
      let r1 := l.dropWhile isAttrNameChar
      if nm.isEmpty then ([], l.drop 1, false)
      else
        match r1 with
        | '=' :: '"' :: r2 =>
          match splitAtFirst '"' r2 with
          | some (v, r3) =>
            let rec3 := parseAttrs f r3
            ((String.mk nm, String.mk v) :: rec3.1, rec3.2)
          | none => ([(String.mk nm, "")], [], false)
        | _ =>
          let rec3 := parseAttrs f r1
          ((String.mk nm, "") :: rec3.1, rec3.2)

def parseNodesGo : Nat → List Char → HForest × List Char
  | 0, l => (.nil, l)
  | _, [] => (.nil, [])
  | _ + 1, '<' :: '/' :: rest => (.nil, '<' :: '/' :: rest)
  | f + 1, '<' :: '!' :: rest =>
    (match splitAtFirst '>' rest with
     | some (_, r2) => parseNodesGo f r2
     | none => (.nil, []))
  | f + 1, '<' :: rest =>
    let tagc := rest.takeWhile isNameChar
    let r1 := rest.dropWhile isNameChar
    if tagc.isEmpty then
      let rec1 := parseNodesGo f rest
      (.text "<" rec1.1, rec1.2)
    else
      let tag := String.mk tagc
      let pa := parseAttrs f r1
      if voidTags.contains tag || pa.2.2 then
        let rec1 := parseNodesGo f pa.2.1
        (.elem tag pa.1 .nil rec1.1, rec1.2)
      else
        let inner := parseNodesGo f pa.2.1
        let r4 :=
          match inner.2 with
          | '<' :: '/' :: r =>
            (match splitAtFirst '>' r with
             | some (_, r2) => r2
             | none => [])
          | other => other
        let rec1 := parseNodesGo f r4
        (.elem tag pa.1 inner.1 rec1.1, rec1.2)
  | f + 1, c :: rest =>
    let txt := (c :: rest).takeWhile fun x => x != '<'
    let r1 := (c :: rest).dropWhile fun x => x != '<'
    let rec1 := parseNodesGo f r1
    (.text (String.mk txt) rec1.1, rec1.2)

def parseHTML (s : String) : HForest :=
  (parseNodesGo s.data.length s.data).1

/-! ## Serialization (`innerHTML` / `outerHTML`) -/

def escTextChar (c : Char) : List Char :=
  if c = '&' then "&amp;".data
  else if c = '<' then "&lt;".data
  else if c = '>' then "&gt;".data
  else [c]

def escAttrChar (c : Char) : List Char :=
  if c = '&' then "&amp;".data
  else if c = '"' then "&quot;".data
  else [c]

def serializeAttrs (attrs : List (String × String)) : String :=
  attrs.foldl
    (fun acc p =>
      acc ++ " " ++ p.1 ++ "=\"" ++ String.mk (p.2.data.flatMap escAttrChar) ++ "\"")
    ""

def serializeH : HForest → String
  | .nil => ""
  | .text s rest => String.mk (s.data.flatMap escTextChar) ++ serializeH rest
  | .elem t a cs rest =>
    (if voidTags.contains t then "<" ++ t ++ serializeAttrs a ++ ">"
     else "<" ++ t ++ serializeAttrs a ++ ">" ++ serializeH cs ++ "</" ++ t ++ ">")
    ++ serializeH rest

def HElem.outerHTML (n : HElem) : String :=
  serializeH (.elem n.tag n.attrs n.children .nil)

def serializeI : IForest → String
  | .nil => ""
  | .text s rest => String.mk (s.data.flatMap escTextChar) ++ serializeI rest
  | .elem _ t a cs rest =>
    (if voidTags.contains t then "<" ++ t ++ serializeAttrs a ++ ">"
     else "<" ++ t ++ serializeAttrs a ++ ">" ++ serializeI cs ++ "</" ++ t ++ ">")
    ++ serializeI rest

/-- `element.innerHTML`: markup of the children only. -/
def IElem.innerHTML (el : IElem) : String := serializeI el.children

/-! ## Document construction and identity indexing

`mkDocument` models `new JSDOM(html)` on fragment input: leading
head-eligible elements (`title`, `meta`, `link`, `base`, `style`) are
placed into `head`, everything else into `body`.  `indexF` assigns each
element a unique preorder identifier, standing in for object
identity. -/

def headTags : List String := ["title", "meta", "link", "base", "style"]

/-- Split off the leading run of head-eligible elements. -/
def splitHead : HForest → HForest × HForest
  | .nil => (.nil, .nil)
  | .text s r => (.nil, .text s r)
  | .elem t a cs r =>
    if headTags.contains t then
      let p := splitHead r
      (.elem t a cs p.1, p.2)
    else (.nil, .elem t a cs r)

def mkDocument (nodes : HForest) : HForest :=
  .elem "#document" []
    (.elem "html" []
      (.elem "head" [] (splitHead nodes).1
        (.elem "body" [] (splitHead nodes).2 .nil))
      .nil)
    .nil

def indexF (i : Nat) : HForest → IForest × Nat
  | .nil => (.nil, i)
  | .text s r =>
    let p := indexF i r
    (.text s p.1, p.2)
  | .elem t a cs r =>
    let pc := indexF (i + 1) cs
    let pr := indexF pc.2 r
    (.elem i t a pc.1 pr.1, pr.2)

def parseDocument (html : String) : IElem :=
  match (indexF 0 (mkDocument (parseHTML html))).1 with
  | .elem i t a cs _ => ⟨⟨i, t, a⟩, cs⟩
  | _ => ⟨⟨0, "#document", []⟩, .nil⟩

/-! ## CSS selector interpreter

The source only uses four selector shapes (tag, `#id`, `.class`,
`[attr="value"]` optionally prefixed by a tag, and `[attr]`), so the
interpreter covers exactly those. -/

def splitWsWordsGo : Nat → List Char → List String
  | 0, _ => []
  | _, [] => []
  | f + 1, l =>
    let l1 := l.dropWhile jsWs
    let w := l1.takeWhile fun c => !jsWs c
    let r := l1.dropWhile fun c => !jsWs c
    if w.isEmpty then [] else String.mk w :: splitWsWordsGo f r

def classesOf (attrs : List (String × String)) : List String :=
  match getAttr attrs "class" with
  | some cls => splitWsWordsGo cls.data.length cls.data
  | Option.none => []

def matchSimpleSel (base : String) (e : EInfo) : Bool :=
  match base.data with
  | [] => true
  | '#' :: rest => getAttr e.attrs "id" == some (String.mk rest)
  | '.' :: rest => (classesOf e.attrs).contains (String.mk rest)
  | _ => e.tag == base

def parseAttrPart (spec : List Char) : Option (String × Option String) :=
  match splitAtFirst '=' spec with
  | Option.none => some (String.mk spec, Option.none)
  | some (nm, rest) =>
    match rest with
    | '"' :: r2 =>
      match splitAtFirst '"' r2 with
      | some (v, _) => some (String.mk nm, some (String.mk v))
      | Option.none => Option.none
    | _ => some (String.mk nm, some (String.mk rest))

def matchAttrPart (e : EInfo) (nm : String) (v : Option String) : Bool :=
  match v with
  | Option.none => (getAttr e.attrs nm).isSome
  | some val => getAttr e.attrs nm == some val

def matchesSelector (sel : String) (e : EInfo) : Bool :=
  match splitAtFirst '[' sel.data with
  | Option.none => matchSimpleSel sel e
  | some (base, rest) =>
    match splitAtFirst ']' rest with
    | Option.none => false
    | some (spec, _) =>
      matchSimpleSel (String.mk base) e &&
      (match parseAttrPart spec with
       | some (nm, v) => matchAttrPart e nm v
       | Option.none => false)

/-! ## Tree queries -/

/-- `querySelectorAll` over a forest, in document (preorder) order. -/
def qsaF (sel : String) : IForest → List IElem
  | .nil => []
  | .text _ r => qsaF sel r
  | .elem i t a cs r =>
    (if matchesSelector sel ⟨i, t, a⟩ then [⟨⟨i, t, a⟩, cs⟩] else []) ++
    qsaF sel cs ++ qsaF sel r

/-- `querySelectorAll` from an element (or the document): matches proper
descendants only, like the DOM method. -/
def IElem.querySelectorAll (el : IElem) (sel : String) : List IElem :=
  qsaF sel el.children

def IElem.querySelector (el : IElem) (sel : String) : Option IElem :=
  (el.querySelectorAll sel).head?

def textContentF : IForest → String
  | .nil => ""
  | .text s r => s ++ textContentF r
  | .elem _ _ _ cs r => textContentF cs ++ textContentF r

def IElem.textContent (el : IElem) : String := textContentF el.children

def elemAttr (el : IElem) (nm : String) : Option String :=
  getAttr el.info.attrs nm

/-- Every element occurrence of a forest, paired with its chain of
ancestor elements (nearest first).  This is the ledger the cleanup
theorems quantify over. -/
def occF (anc : List EInfo) : IForest → List (List EInfo × EInfo)
  | .nil => []
  | .text _ r => occF anc r
  | .elem i t a cs r =>
    (anc, ⟨i, t, a⟩) :: (occF (⟨i, t, a⟩ :: anc) cs ++ occF anc r)

/-- All element occurrences of a document, the `#document` element
included (with the empty chain). -/
def occDoc (doc : IElem) : List (List EInfo × EInfo) :=
  ([], doc.info) :: occF [doc.info] doc.children

/-! ## `cleanHTML` (source lines 103-114)

Three global regex removals — `<script…>…</script>` blocks,
`<style…>…</style>` blocks (both case-insensitive, with a word boundary
after the tag name, spanning to the first matching close tag and left
alone when no close tag follows) — then comments `<!-- … -->` (to the
first `-->`), then a trim. -/

def isWordChar (c : Char) : Bool := c.isAlpha || c.isDigit || c == '_'

def startsWithCI : List Char → List Char → Bool
  | [], _ => true
  | _ :: _, [] => false
  | p :: ps, c :: cs => p.toLower == c.toLower && startsWithCI ps cs

/-- Drop everything through the first occurrence of `pat`
(case-insensitive); `none` when `pat` does not occur. -/
def dropThroughCI (pat : List Char) : Nat → List Char → Option (List Char)
  | 0, _ => Option.none
  | _, [] => Option.none
  | f + 1, c :: rest =>
    if startsWithCI pat (c :: rest) then some ((c :: rest).drop pat.length)
    else dropThroughCI pat f rest

def afterBoundary (n : Nat) (l : List Char) : Bool :=
  match l.drop n with
  | [] => true
  | c :: _ => !isWordChar c

def removeTagBlocksGo (tagName : List Char) : Nat → List Char → List Char
  | 0, l => l
  | _, [] => []
  | f + 1, c :: rest =>
    if c == '<' && startsWithCI tagName rest && afterBoundary tagName.length rest then
      match dropThroughCI ('<' :: '/' :: tagName ++ ['>']) rest.length rest with
      | some after => removeTagBlocksGo tagName f after
      | Option.none => c :: removeTagBlocksGo tagName f rest
    else c :: removeTagBlocksGo tagName f rest

def removeCommentsGo : Nat → List Char → List Char
  | 0, l => l
  | _, [] => []
  | f + 1, c :: rest =>
    if c == '<' && startsWithL "!--".data rest then
      match dropThroughCI "-->".data rest.length rest with
      | some after => removeCommentsGo f after
      | Option.none => c :: removeCommentsGo f rest
    else c :: removeCommentsGo f rest

def cleanHTML (s : String) : String :=
  let l1 := removeTagBlocksGo "script".data s.data.length s.data
  let l2 := removeTagBlocksGo "style".data l1.length l1
  let l3 := removeCommentsGo l2.length l2
  String.mk (jsTrim l3)

/-! ## `cleanupDocument` (source lines 151-213) -/

def contentSelectors : List String :=
  ["article", "[role=\"main\"]", "main", "#main-content", ".main-content",
   "#content", ".content", "#main", ".main", ".post-content", ".article-content"]

def selectorsToRemove : List String :=
  ["nav", "header", "footer", "#header", "#footer", ".header", ".footer",
   ".navigation", ".nav", ".sidebar", ".menu", ".comments", ".advertisement",
   ".ads", ".social-share", ".related-posts", "[role=\"navigation\"]",
   "[role=\"complementary\"]", "[role=\"banner\"]", "[role=\"contentinfo\"]"]

def matchesAnyContent (e : EInfo) : Bool :=
  contentSelectors.any fun s => matchesSelector s e

def matchesAnyRemoval (e : EInfo) : Bool :=
  selectorsToRemove.any fun s => matchesSelector s e

/-- The identities collected into `contentElements`: every element
matched by a content selector together with its `parentElement` chain
(all ancestors up to but excluding the document node, which is the
outermost entry of every occurrence chain). -/
def protectedIds (doc : IElem) : List Nat :=
  (occDoc doc).flatMap fun p =>
    if matchesAnyContent p.2 then p.2.id :: p.1.dropLast.map EInfo.id else []

/-- `content.contains(el)` for identities `cid` and `elid`, evaluated on
the original tree: removal never reparents surviving nodes, so ancestor
relations among nodes present at check time agree with the original
document. -/
def isAncSelfIn (doc : IElem) (cid elid : Nat) : Bool :=
  (occDoc doc).any fun p =>
    p.2.id == elid && (cid == elid || (p.1.map EInfo.id).contains cid)

/-- Remove from a forest every element satisfying `p` (with its whole
subtree), recursing into the survivors. -/
def pruneF (p : EInfo → Bool) : IForest → IForest
  | .nil => .nil
  | .text s r => .text s (pruneF p r)
  | .elem i t a cs r =>
    if p ⟨i, t, a⟩ then pruneF p r
    else .elem i t a (pruneF p cs) (pruneF p r)

/-- The protection part of the removal test: not in the protected set
and not contained in any protected element. -/
def protFreeB (doc0 : IElem) (prot : List Nat) (e : EInfo) : Bool :=
  !prot.contains e.id && !(prot.any fun c => isAncSelfIn doc0 c e.id)

/-- The removal condition of one `selectorsToRemove.forEach` pass. -/
def cleanupPred (doc0 : IElem) (prot : List Nat) (sel : String) (e : EInfo) : Bool :=
  matchesSelector sel e && protFreeB doc0 prot e

def cleanupDocument (doc : IElem) : IElem :=
  let prot := protectedIds doc
  ⟨doc.info,
   selectorsToRemove.foldl (fun f sel => pruneF (cleanupPred doc prot sel) f) doc.children⟩

/-! ## `extractMainContent` (source lines 116-149) -/

/-- The single comma-separated `querySelectorAll` argument of the
Wikipedia branch, split into its simple selectors. -/
def wikiCruftSelectors : List String :=
  [".navbox", ".vertical-navbox", ".sidebar", ".mw-editsection", ".mw-empty-elt"]

def removeWikiCruft (content : IElem) : IElem :=
  ⟨content.info,
   pruneF (fun e => wikiCruftSelectors.any fun s => matchesSelector s e) content.children⟩

def getBody (doc : IElem) : IElem :=
  (doc.querySelector "body").getD doc

def firstQS (doc : IElem) : List String → Option IElem
  | [] => Option.none
  | sel :: rest =>
    match doc.querySelector sel with
    | some el => some el
    | Option.none => firstQS doc rest

def extractMainContentGeneric (doc : IElem) : IElem :=
  (firstQS doc contentSelectors).getD (getBody doc)

def extractMainContent (hostname : String) (doc : IElem) : IElem :=
  if strContains hostname "wikipedia.org" then
    match doc.querySelector "#mw-content-text" with
    | some content => removeWikiCruft content
    | Option.none => extractMainContentGeneric doc
  else extractMainContentGeneric doc

/-! ## `extractPublishedTime` (source lines 215-277)

The `Date` constructor with `isNaN`/`toISOString` is an external
collaborator: it is passed in as `dateToIso : String → Option String`
(`none` models an unparseable date, `some iso` the normalized ISO-8601
string).  Every theorem quantifies over it. -/

def timeSelectors : List String :=
  ["meta[property=\"article:published_time\"]",
   "meta[property=\"og:published_time\"]",
   "meta[name=\"published_time\"]",
   "meta[name=\"date\"]",
   "meta[name=\"article:published_time\"]",
   "meta[itemprop=\"datePublished\"]",
   "time[datetime]",
   "time[pubdate]",
   "[itemprop=\"datePublished\"]",
   ".published-date",
   ".post-date",
   ".article-date"]

/-- JavaScript truthiness for the `a || b || …` chains over
strings-or-null: the empty string and `null` both fall through. -/
def truthyStr : Option String → Option String
  | some "" => Option.none
  | Option.none => Option.none
  | some s => some s

def firstTruthy : List (Option String) → Option String
  | [] => Option.none
  | o :: rest =>
    match truthyStr o with
    | some v => some v
    | Option.none => firstTruthy rest

def tryTimeSelector (dateToIso : String → Option String) (doc : IElem) (sel : String) :
    Option String :=
  match doc.querySelector sel with
  | Option.none => Option.none
  | some el =>
    match firstTruthy
        [elemAttr el "content", elemAttr el "datetime", elemAttr el "pubdate",
         some el.textContent] with
    | some time => dateToIso time
    | Option.none => Option.none

def firstSomeTime (f : String → Option String) : List String → Option String
  | [] => Option.none
  | sel :: rest =>
    match f sel with
    | some v => some v
    | Option.none => firstSomeTime f rest

/-- The Wikipedia date regex `\d{1,2}\s+\w+\s+\d{4}` attempted at one
position: one or two digits (greedy, with the backtrack to one digit),
whitespace, a word, whitespace, four digits. -/
def matchDateFrom (l : List Char) : Option (List Char) :=
  let tryK : Nat → Option (List Char) := fun k =>
    let ds := l.take k
    if ds.length = k && ds.all Char.isDigit then
      let r1 := l.drop k
      let s1 := r1.takeWhile jsWs
      let r2 := r1.dropWhile jsWs
      let w := r2.takeWhile isWordChar
      let r3 := r2.dropWhile isWordChar
      let s2 := r3.takeWhile jsWs
      let r4 := r3.dropWhile jsWs
      let d4 := r4.take 4
      if !s1.isEmpty && !w.isEmpty && !s2.isEmpty &&
          d4.length = 4 && d4.all Char.isDigit then
        some (ds ++ s1 ++ w ++ s2 ++ d4)
      else Option.none
    else Option.none
  match tryK 2 with
  | some m => some m
  | Option.none => tryK 1

def findDatePatternGo : Nat → List Char → Option String
  | 0, _ => Option.none
  | _, [] => Option.none
  | f + 1, c :: rest =>
    match matchDateFrom (c :: rest) with
    | some m => some (String.mk m)
    | Option.none => findDatePatternGo f rest

def findDatePattern (s : String) : Option String :=
  findDatePatternGo s.data.length s.data

def extractPublishedTime (dateToIso : String → Option String) (hostname : String)
    (doc : IElem) : Option String :=
  let wiki : Option String :=
    if strContains hostname "wikipedia.org" then
      match doc.querySelector "#footer-info-lastmod" with
      | some el =>
        match findDatePattern el.textContent with
        | some ds => dateToIso ds
        | Option.none => Option.none
      | Option.none => Option.none
    else Option.none
  match wiki with
  | some t => some t
  | Option.none => firstSomeTime (tryTimeSelector dateToIso doc) timeSelectors

/-- The hostname of `document.location` under `new JSDOM(html, { url })`:
empty (the `about:blank` hostname) when no URL was supplied. -/
def hostnameOf : Option String → String
  | Option.none => ""
  | some u =>
    match dropThroughCI "://".data u.data.length u.data with
    | some rest =>
      String.mk (rest.takeWhile fun c => c != '/' && c != ':' && c != '?' && c != '#')
    | Option.none => ""

/-! ## The `turndown` rendering engine (external collaborator)

Modelled from the spec: §4.4 describes the baseline engine as a
registrable ordered table of (match predicate, replacement) pairs over a
bottom-up depth-first traversal, first-match-wins, with a later-added
rule taking precedence (`addRule` prepends, `use` applies plugins that
call `addRule`).  Behaviour matched against turndown v7 with the
`turndown-plugin-gfm` plugin: blank-element short-circuit, ordered rule
array, keep-filters after the array, default rule last, sibling outputs
joined with at most two newlines, final trim of the whole output.
Simplifications (none exercised by any theorem): no whitespace
collapsing of the re-parsed tree, no flanking-whitespace transfer for
inline elements, no `pre`/`code` escape suppression, and only the
CommonMark rules that the development's inputs can reach (paragraph,
line break, heading, inline link, emphasis, strong, image); other
elements fall to the default rule. -/

def blockTags : List String :=
  ["address", "article", "aside", "audio", "blockquote", "body", "canvas",
   "center", "dd", "dir", "div", "dl", "dt", "fieldset", "figcaption",
   "figure", "footer", "form", "frameset", "h1", "h2", "h3", "h4", "h5",
   "h6", "header", "hgroup", "hr", "html", "isindex", "li", "main", "menu",
   "nav", "noframes", "noscript", "ol", "output", "p", "pre", "section",
   "table", "tbody", "td", "tfoot", "th", "thead", "tr", "ul"]

def meaningfulWhenBlankTags : List String :=
  ["a", "table", "thead", "tbody", "tfoot", "th", "td", "iframe", "script",
   "audio", "video"]

def isBlockTag (t : String) : Bool := blockTags.contains t

def isVoidTag (t : String) : Bool := voidTags.contains t

def hasDescTag (pred : String → Bool) : HForest → Bool
  | .nil => false
  | .text _ r => hasDescTag pred r
  | .elem t _ cs r => pred t || hasDescTag pred cs || hasDescTag pred r

def textContentHF : HForest → String
  | .nil => ""
  | .text s r => s ++ textContentHF r
  | .elem _ _ cs r => textContentHF cs ++ textContentHF r

def HElem.textContent (n : HElem) : String := textContentHF n.children

def allWsStr (s : String) : Bool := s.data.all jsWs

/-- turndown `isBlank`: an element with no meaningful content. -/
def isBlankElem (n : HElem) : Bool :=
  !isVoidTag n.tag && !meaningfulWhenBlankTags.contains n.tag &&
  allWsStr n.textContent &&
  !hasDescTag isVoidTag n.children &&
  !hasDescTag (fun x => meaningfulWhenBlankTags.contains x) n.children

/-- The rendering context of an element: the element itself plus the
parent and grandparent facts that the gfm table rules inspect
(`parentNode`, `parentNode.firstChild === node` via the child index, and
the first-`tbody` test via the parent's own index under the table).
Rules only ever run on element nodes (text nodes are escaped directly),
which also embeds the `node instanceof HTMLElement` guard of the
data-URL rule. -/
structure RCtx where
  node : HElem
  parentTag : String
  index : Nat
  parentIndex : Nat
  grandTag : String

structure TRule where
  name : String
  filter : RCtx → Bool
  replacement : String → RCtx → String

/-- The ordered rule table: `arr` is scanned front to back
(`addRule` prepends, so the most recently added rule wins), then the
keep-filters, then the default rule. -/
structure RuleTable where
  arr : List TRule
  keeps : List (RCtx → Bool)

def addRule (t : RuleTable) (r : TRule) : RuleTable := { t with arr := r :: t.arr }

def addKeep (t : RuleTable) (f : RCtx → Bool) : RuleTable := { t with keeps := f :: t.keeps }

/-! ### Text-node escaping (the turndown `escapes` table, applied in
order; the anchored patterns have no `m` flag, so they apply at the
start of the text-node value only). -/

def escGlobalPass (target : Char) (l : List Char) : List Char :=
  l.flatMap fun c => if c == target then ['\\', c] else [c]

def anchorDash : List Char → List Char
  | '-' :: r => '\\' :: '-' :: r
  | l => l

def anchorPlus : List Char → List Char
  | '+' :: ' ' :: r => '\\' :: '+' :: ' ' :: r
  | l => l

def anchorEq (l : List Char) : List Char :=
  match l with
  | '=' :: _ => '\\' :: l
  | _ => l

def anchorHash (l : List Char) : List Char :=
  let hs := l.takeWhile fun c => c == '#'
  if 1 ≤ hs.length && hs.length ≤ 6 &&
      (match l.drop hs.length with
       | ' ' :: _ => true
       | _ => false) then '\\' :: l
  else l

def anchorTildes (l : List Char) : List Char :=
  if startsWithL "~~~".data l then '\\' :: l else l

def anchorGt : List Char → List Char
  | '>' :: r => '\\' :: '>' :: r
  | l => l

def anchorNumDot (l : List Char) : List Char :=
  let ds := l.takeWhile Char.isDigit
  if !ds.isEmpty &&
      (match l.drop ds.length with
       | '.' :: ' ' :: _ => true
       | _ => false) then
    ds ++ '\\' :: '.' :: l.drop (ds.length + 1)
  else l

def tdEscape (l : List Char) : List Char :=
  anchorNumDot (escGlobalPass '_' (anchorGt (escGlobalPass ']' (escGlobalPass '['
    (anchorTildes (escGlobalPass (Char.ofNat 96) (anchorHash (anchorEq (anchorPlus
      (anchorDash (escGlobalPass '*' (escGlobalPass '\\' l))))))))))))

/-- turndown's own `cleanAttribute`:
`attribute.replace(/(\n+\s*)+/g, '\n')` — every whitespace run that
begins with a newline collapses to one newline. -/
def tdCleanAttrGo : Nat → List Char → List Char
  | 0, l => l
  | _, [] => []
  | f + 1, c :: rest =>
    if c == '\n' then '\n' :: tdCleanAttrGo f (rest.dropWhile jsWs)
    else c :: tdCleanAttrGo f rest

def tdCleanAttribute (o : Option String) : String :=
  match o with
  | some a => String.mk (tdCleanAttrGo a.data.length a.data)
  | Option.none => ""

/-- The converter class's own `cleanAttribute` (source lines 96-98):
`attr ? attr.trim().replace(/\s+/g, ' ') : ''`. -/
def cleanAttribute (o : Option String) : String :=
  match o with
  | some a => if a = "" then "" else String.mk (collapseWs (jsTrim a.data))
  | Option.none => ""

/-! ### Output joining and post-processing -/

def dropTrailNl (l : List Char) : List Char :=
  (l.reverse.dropWhile fun c => c == '\n').reverse

def dropLeadNl (l : List Char) : List Char :=
  l.dropWhile fun c => c == '\n'

def nlStr : Nat → List Char
  | 0 => []
  | 1 => ['\n']
  | _ => ['\n', '\n']

/-- turndown `join`: sibling outputs are separated by the larger of the
two adjoining newline runs, capped at two. -/
def tdJoin (output repl : String) : String :=
  let s1 := dropTrailNl output.data
  let s2 := dropLeadNl repl.data
  let nls := min 2 (max (output.data.length - s1.length) (repl.data.length - s2.length))
  String.mk (s1 ++ nlStr nls ++ s2)

/-- turndown post-processing: strip leading tab/CR/LF and trailing
whitespace from the whole output. -/
def tdPostProcess (s : String) : String :=
  let l1 := s.data.dropWhile fun c => c == '\t' || c == '\r' || c == '\n'
  String.mk (trimRightP jsWs l1)

/-! ### CommonMark baseline rules (subset, in turndown's registration
order) -/

def ruleParagraph : TRule :=
  { name := "paragraph",
    filter := fun ctx => ctx.node.tag == "p",
    replacement := fun content _ => "\n\n" ++ content ++ "\n\n" }

def ruleLineBreak : TRule :=
  { name := "lineBreak",
    filter := fun ctx => ctx.node.tag == "br",
    replacement := fun _ _ => "  \n" }

def headingLevel (t : String) : Nat :=
  match t.data with
  | [_, c] => c.toNat - 48
  | _ => 1

def ruleHeading : TRule :=
  { name := "heading",
    filter := fun ctx => ["h1", "h2", "h3", "h4", "h5", "h6"].contains ctx.node.tag,
    replacement := fun content ctx =>
      let lvl := headingLevel ctx.node.tag
      if lvl < 3 then
        "\n\n" ++ content ++ "\n" ++
        String.mk (List.replicate content.length (if lvl = 1 then '=' else '-')) ++ "\n\n"
      else
        "\n\n" ++ String.mk (List.replicate lvl '#') ++ " " ++ content ++ "\n\n" }

def ruleInlineLink : TRule :=
  { name := "inlineLink",
    filter := fun ctx =>
      ctx.node.tag == "a" && (ctx.node.getAttribute "href").isSome,
    replacement := fun content ctx =>
      let href := String.mk (((ctx.node.getAttribute "href").getD "").data.flatMap
        fun c => if c == '(' || c == ')' then ['\\', c] else [c])
      let title := tdCleanAttribute (ctx.node.getAttribute "title")
      let titlePart := if title = "" then "" else " \"" ++ title ++ "\""
      "[" ++ content ++ "](" ++ href ++ titlePart ++ ")" }

def ruleEmphasis : TRule :=
  { name := "emphasis",
    filter := fun ctx => ctx.node.tag == "em" || ctx.node.tag == "i",
    replacement := fun content _ =>
      if (jsTrim content.data).isEmpty then "" else "_" ++ content ++ "_" }

def ruleStrong : TRule :=
  { name := "strong",
    filter := fun ctx => ctx.node.tag == "strong" || ctx.node.tag == "b",
    replacement := fun content _ =>
      if (jsTrim content.data).isEmpty then "" else "**" ++ content ++ "**" }

def ruleImage : TRule :=
  { name := "image",
    filter := fun ctx => ctx.node.tag == "img",
    replacement := fun _ ctx =>
      let alt := tdCleanAttribute (ctx.node.getAttribute "alt")
      let src := (ctx.node.getAttribute "src").getD ""
      let title := tdCleanAttribute (ctx.node.getAttribute "title")
      let titlePart := if title = "" then "" else " \"" ++ title ++ "\""
      if src = "" then "" else "![" ++ alt ++ "](" ++ src ++ titlePart ++ ")" }

def commonmarkRules : List TRule :=
  [ruleParagraph, ruleLineBreak, ruleHeading, ruleInlineLink, ruleEmphasis,
   ruleStrong, ruleImage]

/-! ### Rules registered by `configureTurndownService`
(source lines 27-94) -/

def removeIrrelevantRule : TRule :=
  { name := "remove-irrelevant",
    filter := fun ctx =>
      ["meta", "style", "script", "noscript", "link", "textarea", "select"].contains
        ctx.node.tag,
    replacement := fun _ _ => "" }

def truncateSvgRule : TRule :=
  { name := "truncate-svg",
    filter := fun ctx => ctx.node.tag == "svg",
    replacement := fun _ _ => "" }

def titleAsH1Rule : TRule :=
  { name := "title-as-h1",
    filter := fun ctx => ctx.node.tag == "title",
    replacement := fun innerText _ => innerText ++ "\n===============\n" }

/-- The `data-url-to-pseudo-object-url` rule (source lines 49-64).  The
filter's `node instanceof HTMLElement` guard is embedded by rule
contexts being element nodes; `imgNode.src` resolves to the attribute
value for `data:` URLs and `imgNode.alt` is the empty string when
absent. -/
def dataUrlRule : TRule :=
  { name := "data-url-to-pseudo-object-url",
    filter := fun ctx =>
      ctx.node.tag == "img" &&
      (((ctx.node.getAttribute "src").map fun v => startsWithL "data:".data v.data).getD
        false),
    replacement := fun _ ctx =>
      let src := (ctx.node.getAttribute "src").getD ""
      let alt := cleanAttribute (ctx.node.getAttribute "alt")
      "![" ++ alt ++ "](blob:" ++ md5hex src ++ ")" }

def improvedParagraphRule : TRule :=
  { name := "improved-paragraph",
    filter := fun ctx => ctx.node.tag == "p",
    replacement := fun innerText _ =>
      let trimmed := jsTrim innerText.data
      if trimmed.isEmpty then ""
      else String.mk (collapseNL trimmed) ++ "\n\n" }

/-! ### `turndown-plugin-gfm` rules -/

/-- `every(tr.childNodes, n => n.nodeName === 'TH')`: text child nodes
fail the test too. -/
def allNodesTh : HForest → Bool
  | .nil => true
  | .text _ _ => false
  | .elem t _ _ r => t == "th" && allNodesTh r

/-- gfm `isHeadingRow(tr)` from the rendering context: parent is a
`thead`, or the row is its parent's first child, the parent is the
table itself or its first `tbody`, and every cell is a `th`. -/
def isHeadingRowCtx (ctx : RCtx) : Bool :=
  ctx.parentTag == "thead" ||
  (ctx.index == 0 &&
    (ctx.parentTag == "table" ||
      (ctx.parentTag == "tbody" && ctx.parentIndex == 0 && ctx.grandTag == "table")) &&
    allNodesTh ctx.node.children)

def directTrs : HForest → List HElem
  | .nil => []
  | .text _ r => directTrs r
  | .elem t a cs r =>
    (if t == "tr" then [⟨t, a, cs⟩] else []) ++ directTrs r

/-- The `rows` accessor of a parsed table node (the renderer's own
re-parsed DOM provides it natively): direct `tr` children plus `tr`
children of section children, in tree order. -/
def tableRows (children : HForest) : List HElem :=
  match children with
  | .nil => []
  | .text _ r => tableRows r
  | .elem t a cs r =>
    (if t == "tr" then [⟨t, a, cs⟩]
     else if ["thead", "tbody", "tfoot"].contains t then directTrs cs
     else []) ++ tableRows r

/-- gfm `isHeadingRow(node.rows[0])`, evaluated structurally on the
table.  A first row reached through an empty leading section is
conservatively reported as not a heading row (never exercised). -/
def firstRowIsHeading (tbl : HElem) : Bool :=
  match tableRows tbl.children with
  | [] => false
  | _ :: _ =>
    match tbl.children with
    | .elem t _ cs _ =>
      if t == "tr" then allNodesTh cs
      else if t == "thead" then !(directTrs cs).isEmpty
      else if t == "tbody" then
        match cs with
        | .elem t2 _ cs2 _ => t2 == "tr" && allNodesTh cs2
        | _ => false
      else false
    | _ => false

def gfmCell (content : String) (idx : Nat) : String :=
  (if idx = 0 then "| " else " ") ++ content ++ " |"

def tableCellRule : TRule :=
  { name := "tableCell",
    filter := fun ctx => ctx.node.tag == "th" || ctx.node.tag == "td",
    replacement := fun content ctx => gfmCell content ctx.index }

def alignBorder (al : String) : String :=
  if al = "left" then ":--"
  else if al = "right" then "--:"
  else if al = "center" then ":-:"
  else "---"

/-- The child nodes of an element as a list (text nodes as `#text`
pseudo-elements), for the indexed iteration of the gfm border-cell
construction. -/
def forestList : HForest → List HElem
  | .nil => []
  | .text _ r => ⟨"#text", [], .nil⟩ :: forestList r
  | .elem t a cs r => ⟨t, a, cs⟩ :: forestList r

def tableRowRule : TRule :=
  { name := "tableRow",
    filter := fun ctx => ctx.node.tag == "tr",
    replacement := fun content ctx =>
      let borderCells :=
        if isHeadingRowCtx ctx then
          String.join ((forestList ctx.node.children).enum.map fun p =>
            gfmCell
              (alignBorder
                (String.mk (((p.2.getAttribute "align").getD "").data.map Char.toLower)))
              p.1)
        else ""
      "\n" ++ content ++ (if borderCells = "" then "" else "\n" ++ borderCells) }

/-- `content.replace('\n\n', '\n')`: a plain-string replace, so only the
first occurrence. -/
def rfGo : Nat → List Char → List Char
  | 0, l => l
  | _, [] => []
  | _ + 1, '\n' :: '\n' :: rest => '\n' :: rest
  | f + 1, c :: rest => c :: rfGo f rest

def replaceFirstNlNl (s : String) : String := String.mk (rfGo s.data.length s.data)

def tableRule : TRule :=
  { name := "table",
    filter := fun ctx => ctx.node.tag == "table" && firstRowIsHeading ctx.node,
    replacement := fun content _ => "\n\n" ++ replaceFirstNlNl content ++ "\n\n" }

def tableSectionRule : TRule :=
  { name := "tableSection",
    filter := fun ctx => ["thead", "tbody", "tfoot"].contains ctx.node.tag,
    replacement := fun content _ => content }

/-- gfm `tables` keeps (renders as raw HTML) every table whose first row
is not a heading row. -/
def tableKeepFilter (ctx : RCtx) : Bool :=
  ctx.node.tag == "table" && !firstRowIsHeading ctx.node

def strikethroughRule : TRule :=
  { name := "strikethrough",
    filter := fun ctx => ["del", "s", "strike"].contains ctx.node.tag,
    replacement := fun content _ => "~" ++ content ++ "~" }

/-- Approximates the gfm `highlightedCodeBlock` rule (its className
regex and captured language are elided); no theorem exercises it. -/
def highlightedCodeBlockRule : TRule :=
  { name := "highlightedCodeBlock",
    filter := fun ctx =>
      ctx.node.tag == "div" &&
      strContains ((ctx.node.getAttribute "class").getD "") "highlight-" &&
      (match ctx.node.children with
       | .elem t _ _ _ => t == "pre"
       | _ => false),
    replacement := fun _ ctx =>
      "\n\n```\n" ++
      (match ctx.node.children with
       | .elem _ _ cs _ => textContentHF cs
       | _ => "") ++ "\n```\n\n" }

/-- gfm `taskListItems` (`node.checked` embedded as the presence of the
`checked` attribute). -/
def taskListItemsRule : TRule :=
  { name := "taskListItems",
    filter := fun ctx =>
      ctx.node.tag == "input" &&
      ctx.node.getAttribute "type" == some "checkbox" &&
      ctx.parentTag == "li",
    replacement := fun _ ctx =>
      (if (ctx.node.getAttribute "checked").isSome then "[x]" else "[ ]") ++ " " }

inductive GfmPlugin where
  | highlightedCodeBlock
  | strikethrough
  | tables
  | taskListItems
deriving DecidableEq

def applyGfmPlugin (t : RuleTable) : GfmPlugin → RuleTable
  | .highlightedCodeBlock => addRule t highlightedCodeBlockRule
  | .strikethrough => addRule t strikethroughRule
  | .tables =>
    let t1 := addKeep t tableKeepFilter
    addRule (addRule (addRule (addRule t1 tableCellRule) tableRowRule) tableRule)
      tableSectionRule
  | .taskListItems => addRule t taskListItemsRule

/-! ### Rule dispatch and traversal -/

def blankRule : TRule :=
  { name := "blank",
    filter := fun _ => true,
    replacement := fun _ ctx => if isBlockTag ctx.node.tag then "\n\n" else "" }

def defaultRule : TRule :=
  { name := "default",
    filter := fun _ => true,
    replacement := fun content ctx =>
      if isBlockTag ctx.node.tag then "\n\n" ++ content ++ "\n\n" else content }

def keepRule : TRule :=
  { name := "keep",
    filter := fun _ => true,
    replacement := fun _ ctx =>
      if isBlockTag ctx.node.tag then "\n\n" ++ ctx.node.outerHTML ++ "\n\n"
      else ctx.node.outerHTML }

/-- turndown `rules.forNode`: blank short-circuit, then the ordered rule
array (front wins), then the keep-filters, then the default rule. -/
def tdForNode (t : RuleTable) (ctx : RCtx) : TRule :=
  if isBlankElem ctx.node then blankRule
  else
    match t.arr.find? fun r => r.filter ctx with
    | some r => r
    | Option.none => if t.keeps.any (fun f => f ctx) then keepRule else defaultRule

/-- The bottom-up depth-first traversal: render each child (text nodes
escaped, elements via their first matching rule over their already
rendered content) and join the sibling outputs. -/
def tdF (t : RuleTable) (gTag : String) (pIdx : Nat) (pTag : String) (idx : Nat)
    (acc : String) : HForest → String
  | .nil => acc
  | .text s r =>
    tdF t gTag pIdx pTag (idx + 1) (tdJoin acc (String.mk (tdEscape s.data))) r
  | .elem tag attrs cs r =>
    let content := tdF t pTag idx tag 0 "" cs
    let ctx : RCtx := ⟨⟨tag, attrs, cs⟩, pTag, idx, pIdx, gTag⟩
    tdF t gTag pIdx pTag (idx + 1)
      (tdJoin acc ((tdForNode t ctx).replacement content ctx)) r

/-- `TurndownService.turndown` on a string input: the engine re-parses
the markup with its own parser and renders the resulting tree; any
property previously attached to other DOM objects is invisible here. -/
def turndown (t : RuleTable) (input : String) : String :=
  if input = "" then ""
  else tdPostProcess (tdF t "#document" 0 "x-turndown" 0 "" (parseHTML input))

/-! ## Options and `configureTurndownService` (source lines 8-14 and
27-94) -/

/-- The `retainImages` enumeration of the options interface.  The
implementation never reads this option anywhere. -/
inductive RetainImages where
  | none
  | alt
  | alt_p
  | all
deriving DecidableEq

/-- The `noGfm` values `false`, `true` and the string `'table'`. -/
inductive NoGfmOpt where
  | asFalse
  | asTrue
  | asTable
deriving DecidableEq

structure WebToMarkdownOptions where
  retainImages : Option RetainImages := Option.none
  noGfm : Option NoGfmOpt := Option.none
  imgDataUrlToObjectUrl : Option Bool := Option.none
  customRules : List (String × TRule) := []
  customKeep : Option (RCtx → Bool) := Option.none

/-- JavaScript truthiness of `options?.noGfm`: `undefined` and `false`
are falsy; `true` and the nonempty string `'table'` are truthy. -/
def jsTruthyNoGfm : Option NoGfmOpt → Bool
  | Option.none => false
  | some .asFalse => false
  | some .asTrue => true
  | some .asTable => true

/-- The GFM plugins applied by lines 85-93 of the source, with the
source's own guard structure: the outer `if (!options?.noGfm)` is
entered only when `noGfm` is absent or `false`, and only then is the
inner `noGfm === 'table'` comparison made. -/
def gfmPluginsApplied (noGfm : Option NoGfmOpt) : List GfmPlugin :=
  if !jsTruthyNoGfm noGfm then
    if noGfm = some NoGfmOpt.asTable then
      [GfmPlugin.strikethrough, GfmPlugin.taskListItems]
    else
      [GfmPlugin.highlightedCodeBlock, GfmPlugin.strikethrough, GfmPlugin.tables,
       GfmPlugin.taskListItems]
  else []

/-- `configureTurndownService` (source lines 27-94): the exact
registration order — `customKeep`, `remove-irrelevant`, `truncate-svg`,
`title-as-h1`, the data-URL rule when enabled, the caller's custom rules
in insertion order, `improved-paragraph`, and finally the GFM plugins.
`retainImages` is never inspected, mirroring the source, which declares
the option but contains no code consuming it. -/
def configureTurndownService (opts : WebToMarkdownOptions) : RuleTable :=
  let t0 : RuleTable := { arr := commonmarkRules, keeps := [] }
  let t1 :=
    match opts.customKeep with
    | some f => addKeep t0 f
    | Option.none => t0
  let t2 := addRule t1 removeIrrelevantRule
  let t3 := addRule t2 truncateSvgRule
  let t4 := addRule t3 titleAsH1Rule
  let t5 :=
    match opts.imgDataUrlToObjectUrl with
    | some true => addRule t4 dataUrlRule
    | _ => t4
  let t6 := opts.customRules.foldl (fun t kr => addRule t kr.2) t5
  let t7 := addRule t6 improvedParagraphRule
  (gfmPluginsApplied opts.noGfm).foldl applyGfmPlugin t7

/-! ## The converter facade (source lines 279-311 and 318-328) -/

/-- The `rows` lists the source attaches with `Object.defineProperty`
(source lines 292-300): for each table of the selected content, the list
of all descendant `tr` elements.  The property lives on the jsdom
objects, while rendering starts from the serialized `innerHTML` string,
so this value never reaches the renderer; `htmlToMarkdown` computes and
then discards it, mirroring that. -/
def attachedTableRows (mainContent : IElem) : List (Nat × List IElem) :=
  (mainContent.querySelectorAll "table").map fun tbl =>
    (tbl.info.id, tbl.querySelectorAll "tr")

/-- `document.querySelector('title')?.textContent || 'Untitled'`: the
empty string is falsy, so a missing or empty title yields the literal
`Untitled`. -/
def titleOf (doc : IElem) : String :=
  match doc.querySelector "title" with
  | some el => if el.textContent = "" then "Untitled" else el.textContent
  | Option.none => "Untitled"

/-- JavaScript `Array.prototype.join('\n')`. -/
def jsJoinNl : List String → String
  | [] => ""
  | [a] => a
  | a :: rest => a ++ "\n" ++ jsJoinNl rest

/-- `htmlToMarkdown(html, url?)` (source lines 279-311).  `dateToIso`
is the external `Date`-parsing collaborator. -/
def htmlToMarkdown (opts : WebToMarkdownOptions) (dateToIso : String → Option String)
    (html : String) (url : Option String) : String :=
  let cleanedHtml := cleanHTML html
  let doc := parseDocument cleanedHtml
  let title := titleOf doc
  let hostname := hostnameOf url
  let publishedTime := extractPublishedTime dateToIso hostname doc
  let doc2 := cleanupDocument doc
  let mainContent := extractMainContent hostname doc2
  let _rowsAttachment := attachedTableRows mainContent
  let markdown := turndown (configureTurndownService opts) mainContent.innerHTML
  let header := jsJoinNl (([
    "Title: " ++ title,
    (match url with
     | some u => if u = "" then "" else "\nURL Source: " ++ u
     | Option.none => ""),
    (match publishedTime with
     | some p => if p = "" then "" else "\nPublished Time: " ++ p
     | Option.none => ""),
    "\nMarkdown Content:"] : List String).filter fun f => f ≠ "")
  header ++ "\n" ++ markdown

/-- A value thrown by JavaScript code: either an `Error` instance
(carrying its message) or any other value. -/
inductive JsThrown where
  | errorV (message : String)
  | otherV (tag : String)
deriving DecidableEq

/-- The outcome of the `axios.get` collaborator: response body text or a
thrown value. -/
inductive FetchOutcome where
  | success (body : String)
  | failure (e : JsThrown)

/-- `urlToMarkdown` (source lines 318-328): on success convert the body
with the URL attached; on a thrown `Error` rethrow a new `Error` whose
message prefixes the original's with `Failed to fetch URL: `; rethrow
any non-`Error` value unchanged. -/
def urlToMarkdown (opts : WebToMarkdownOptions) (dateToIso : String → Option String)
    (fetch : String → FetchOutcome) (url : String) : Except JsThrown String :=
  match fetch url with
  | .success body => .ok (htmlToMarkdown opts dateToIso body (some url))
  | .failure e =>
    match e with
    | .errorV m => .error (.errorV ("Failed to fetch URL: " ++ m))
    | .otherV v => .error (.otherV v)

/-! ## Derived forms and concrete instances used by the verification -/

/-- The flat list of rules contributed by the GFM plugin block, newest
first: the `arr` prefix that the plugin fold of
`configureTurndownService` builds.  (The middle branch is the
unreachable `noGfm === 'table'` case.) -/
def gfmArr (noGfm : Option NoGfmOpt) : List TRule :=
  if jsTruthyNoGfm noGfm then []
  else if noGfm = some NoGfmOpt.asTable then [taskListItemsRule, strikethroughRule]
  else
    [taskListItemsRule, tableSectionRule, tableRule, tableRowRule, tableCellRule,
     strikethroughRule, highlightedCodeBlockRule]

/-- The data-URL rule block of the `arr`, present exactly when the
option is enabled. -/
def dataUrlBlock (o : Option Bool) : List TRule :=
  match o with
  | some true => [dataUrlRule]
  | _ => []

/-- `htmlToMarkdown` with the `rows`-attachment computation deleted:
stated from the spec's words to compare against the implementation,
which the table-normalization sentence of the spec claims depends on
the attachment. -/
def htmlToMarkdownWithoutRowsAttachment (opts : WebToMarkdownOptions)
    (dateToIso : String → Option String) (html : String) (url : Option String) : String :=
  let cleanedHtml := cleanHTML html
  let doc := parseDocument cleanedHtml
  let title := titleOf doc
  let hostname := hostnameOf url
  let publishedTime := extractPublishedTime dateToIso hostname doc
  let doc2 := cleanupDocument doc
  let mainContent := extractMainContent hostname doc2
  let markdown := turndown (configureTurndownService opts) mainContent.innerHTML
  let header := jsJoinNl (([
    "Title: " ++ title,
    (match url with
     | some u => if u = "" then "" else "\nURL Source: " ++ u
     | Option.none => ""),
    (match publishedTime with
     | some p => if p = "" then "" else "\nPublished Time: " ++ p
     | Option.none => ""),
    "\nMarkdown Content:"] : List String).filter fun f => f ≠ "")
  header ++ "\n" ++ markdown

/-- The metadata header as the spec describes it: fixed field order
Title, URL Source (when a nonempty url was passed), Published Time
(when a nonempty one was found), then the literal marker line. -/
def headerFor (title : String) (url : Option String) (publishedTime : Option String) :
    String :=
  "Title: " ++ title ++
  (match url with
   | some u => if u = "" then "" else "\n\nURL Source: " ++ u
   | Option.none => "") ++
  (match publishedTime with
   | some p => if p = "" then "" else "\n\nPublished Time: " ++ p
   | Option.none => "") ++
  "\n\nMarkdown Content:\n"

def c6ImgCtx : RCtx :=
  ⟨⟨"img", [("src", "data:z"), ("alt", "pic")], HForest.nil⟩, "p", 0, 0, "body"⟩

/-- A caller-supplied custom rule for paragraphs. -/
def c4CustomP : TRule :=
  { name := "custom-p",
    filter := fun ctx => ctx.node.tag == "p",
    replacement := fun _ _ => "CUSTOM" }

def c4CustomMeta : TRule :=
  { name := "custom-meta",
    filter := fun ctx => ctx.node.tag == "meta",
    replacement := fun _ _ => "META1" }

def c4CustomMeta2 : TRule :=
  { name := "custom-meta-2",
    filter := fun ctx => ctx.node.tag == "meta",
    replacement := fun _ _ => "META2" }

def c4Opts : WebToMarkdownOptions :=
  { customRules := [("custom-meta", c4CustomMeta), ("custom-meta-2", c4CustomMeta2)] }

/-- A `meta` element context: matched by both custom meta rules and by
the baseline `remove-irrelevant` rule. -/
def c4MetaCtx : RCtx :=
  ⟨⟨"meta", [("name", "a")], HForest.nil⟩, "article", 0, 0, "body"⟩

/-- A caller-supplied custom rule for tables. -/
def c4CustomTable : TRule :=
  { name := "custom-table",
    filter := fun ctx => ctx.node.tag == "table",
    replacement := fun _ _ => "TBL" }

/-- A headerless table context: the gfm `table` rule's filter does not
match it (no heading row), only the gfm keep-filter would. -/
def c4TableCtx : RCtx :=
  ⟨⟨"table", [],
      HForest.elem "tr" [] (HForest.elem "td" [] (HForest.text "a" HForest.nil)
        HForest.nil) HForest.nil⟩,
    "body", 0, 0, "html"⟩

def c5Headerless : String := "<table><tr><td>a</td></tr></table>"

def c5Th : String := "<table><tr><th>h</th></tr><tr><td>a</td></tr></table>"

def c5Nested : String :=
  "<table><tr><td><table><tr><td>x</td></tr></table></td></tr></table>"

/-- The selected main content for the nested-table input, as
`htmlToMarkdown` computes it before rendering. -/
def c5NestedMain : IElem :=
  extractMainContent "" (cleanupDocument (parseDocument (cleanHTML c5Nested)))

/-- The children of the outer table as the rendering engine re-parses
them from the serialized markup. -/
def c5OuterChildren : HForest :=
  match parseHTML c5Nested with
  | .elem _ _ cs _ => cs
  | _ => .nil

def c7Ex : String :=
  "<title>My Page</title><article><h1>Hi</h1><p>Hello world</p></article>"

def c8Ex : String :=
  "<nav>NavJunk</nav><article>Real content</article><footer>FootJunk</footer>"

def c8Doc : IElem := parseDocument (cleanHTML c8Ex)

theorem splitAtFirst_length {ch : Char} :
    ∀ {l b a : List Char}, splitAtFirst ch l = some (b, a) →
      b.length + a.length + 1 = l.length := by
  intro l
  induction l with
  | nil => intro b a h; simp [splitAtFirst] at h
  | cons c r ih =>
    intro b a h
    by_cases hc : c == ch
    · simp [splitAtFirst, hc] at h
      obtain ⟨hb, ha⟩ := h
      subst hb; subst ha; simp
    · simp only [splitAtFirst, hc, Bool.false_eq_true, if_false] at h
      rcases hr : splitAtFirst ch r with _ | ⟨b', a'⟩ <;> rw [hr] at h
      · simp at h
      · simp at h
        obtain ⟨hb, ha⟩ := h
        subst hb; subst ha
        have := ih hr
        simp [List.length_cons]
        omega

theorem collapseWsGo_fuel :
    ∀ (f1 f2 : Nat) (l : List Char), l.length ≤ f1 → l.length ≤ f2 →
      collapseWsGo f1 l = collapseWsGo f2 l := by
  intro f1
  induction f1 with
  | zero =>
    intro f2 l h1 _
    have : l = [] := List.eq_nil_of_length_eq_zero (Nat.le_zero.mp h1)
    subst this
    cases f2 <;> rfl
  | succ f1 ih =>
    intro f2 l h1 h2
    cases l with
    | nil => cases f2 <;> rfl
    | cons c r =>
      cases f2 with
      | zero => simp at h2
      | succ g =>
        simp only [List.length_cons, Nat.succ_le_succ_iff] at h1 h2
        simp only [collapseWsGo]
        by_cases hc : jsWs c
        · simp only [hc, if_true]
          have hd := (List.dropWhile_sublist jsWs (l := r)).length_le
          rw [ih g (r.dropWhile jsWs) (Nat.le_trans hd h1) (Nat.le_trans hd h2)]
        · simp only [if_neg hc]
          rw [ih g r h1 h2]

theorem tryLink_length {rest repl r4 : List Char}
    (h : tryLink rest = some (repl, r4)) : r4.length < rest.length := by
  unfold tryLink at h
  split at h
  · exact absurd h (by simp)
  next c r1 h1 =>
    have hlen1 := splitAtFirst_length h1
    split at h
    · split at h
      · exact absurd h (by simp)
      next p r3 h2 =>
        have hlen2 : r3.length < r1.length := by
          have hle := (List.dropWhile_sublist jsWs (l := r1)).length_le
          rw [h2] at hle
          simp [List.length_cons] at hle
          omega
        split at h
        · split at h
          · exact absurd h (by simp)
          next d r4' h3 =>
            have hlen3 := splitAtFirst_length h3
            split at h
            · exact absurd h (by simp)
            · simp at h
              obtain ⟨-, hr⟩ := h
              subst hr
              omega
        · exact absurd h (by simp)
    · exact absurd h (by simp)

theorem linkFixGo_fuel :
    ∀ (f1 f2 : Nat) (l : List Char), l.length ≤ f1 → l.length ≤ f2 →
      linkFixGo f1 l = linkFixGo f2 l := by
  intro f1
  induction f1 with
  | zero =>
    intro f2 l h1 _
    have : l = [] := List.eq_nil_of_length_eq_zero (Nat.le_zero.mp h1)
    subst this
    cases f2 <;> rfl
  | succ f1 ih =>
    intro f2 l h1 h2
    cases l with
    | nil => cases f2 <;> rfl
    | cons c rest =>
      cases f2 with
      | zero => simp at h2
      | succ g =>
        simp only [List.length_cons, Nat.succ_le_succ_iff] at h1 h2
        simp only [linkFixGo]
        by_cases hc : c == '['
        · simp only [hc, if_true]
          rcases ht : tryLink rest with _ | ⟨repl, r4⟩ <;> simp only [ht]
          · rw [ih g rest h1 h2]
          · have hl := tryLink_length ht
            rw [ih g r4 (by omega) (by omega)]
        · simp only [if_neg hc]
          rw [ih g rest h1 h2]

theorem spTab_not_lt {c : Char} (h : isSpTab c = true) : isLT c = false := by
  simp [isSpTab] at h
  rcases h with h | h <;> subst h <;> rfl

theorem spTab_ne_nl {c : Char} (h : isSpTab c = true) : (c == '\n') = false := by
  simp [isSpTab] at h
  rcases h with h | h <;> subst h <;> rfl

theorem lt_of_nl {c : Char} (h : (c == '\n') = true) : isLT c = true := by
  have : c = '\n' := by simpa using h
  subst this; rfl

theorem spTab_jsWs {c : Char} (h : isSpTab c = true) : jsWs c = true := by
  simp [isSpTab] at h
  rcases h with h | h <;> subst h <;> rfl

/-- A scan that starts on a character other than `\n` ignores the
incoming newline counter. -/
theorem ntGo_irrel (m n : Nat) (c : Char) (r : List Char) (h : (c == '\n') = false) :
    ntGo m (c :: r) = ntGo n (c :: r) := by
  simp [ntGo, h]

theorem ntGo_cnlGo : ∀ (l : List Char) (n : Nat), ntGo n (cnlGo n l) = true := by
  intro l
  induction l with
  | nil => intro n; rfl
  | cons c r ih =>
    intro n
    by_cases hc : c == '\n'
    · by_cases hn : n ≥ 2
      · simp only [cnlGo, hc, if_true, hn]
        exact ih n
      · have hc' : c = '\n' := by simpa using hc
        subst hc'
        simp only [cnlGo, if_true, hn, if_false, ntGo, ite_true, beq_self_eq_true]
        simpa [hn] using ih (n + 1)
    · simp only [cnlGo, hc, Bool.false_eq_true, if_false, ntGo]
      simpa [hc] using ih 0

theorem cnlGo_of_ntGo : ∀ (l : List Char) (n : Nat), ntGo n l = true → cnlGo n l = l := by
  intro l
  induction l with
  | nil => intro n _; rfl
  | cons c r ih =>
    intro n h
    by_cases hc : c == '\n'
    · have hc' : c = '\n' := by simpa using hc
      subst hc'
      by_cases hn : n ≥ 2
      · simp [ntGo, hn] at h
      · simp only [ntGo, beq_self_eq_true, if_true, hn, if_false] at h
        simp only [cnlGo, beq_self_eq_true, if_true, hn, if_false]
        rw [ih (n + 1) (by simpa [hn] using h)]
    · simp only [ntGo, hc, Bool.false_eq_true, if_false] at h
      simp only [cnlGo, hc, Bool.false_eq_true, if_false]
      rw [ih 0 h]

theorem stGo_siGo : ∀ (l : List Char) (b : Bool), stGo b (siGo b l) = true := by
  intro l
  induction l with
  | nil => intro b; cases b <;> rfl
  | cons c r ih =>
    intro b
    by_cases hb : b && isSpTab c
    · have hb1 : b = true := by
        cases b
        · simp at hb
        · rfl
      subst hb1
      simp only [siGo, hb, if_true]
      exact ih true
    · simp only [siGo, hb, Bool.false_eq_true, if_false, stGo, hb]
      exact ih (isLT c)

theorem siGo_of_stGo : ∀ (l : List Char) (b : Bool), stGo b l = true → siGo b l = l := by
  intro l
  induction l with
  | nil => intro b _; rfl
  | cons c r ih =>
    intro b h
    by_cases hb : b && isSpTab c
    · simp [stGo, hb] at h
    · simp only [stGo, hb, Bool.false_eq_true, if_false] at h
      simp only [siGo, hb, Bool.false_eq_true, if_false]
      rw [ih (isLT c) h]

/-- If the input has no nonempty space/tab-only line, the indentation
strip of pass 3 cannot put two newlines next to each other, so the
absence of triple newlines survives it.  The hypothesis couples the
`siGo` flag with the `wlGo` line state. -/
theorem ntGo_siGo : ∀ (l : List Char) (st : LineSt) (b : Bool) (n : Nat),
    (b = true → st ≠ .content) →
    wlGo st l = true → ntGo n l = true → ntGo n (siGo b l) = true := by
  intro l
  induction l with
  | nil => intro st b n _ _ _; cases b <;> rfl
  | cons c r ih =>
    intro st b n hcoup hwl hnt
    by_cases hb : b && isSpTab c
    · have hb1 : b = true := by
        cases b
        · simp at hb
        · rfl
      have hsp : isSpTab c = true := by
        cases hsp' : isSpTab c
        · rw [hsp', Bool.and_false] at hb; simp at hb
        · rfl
      have hstnc : st ≠ .content := hcoup hb1
      have hwl' : wlGo .wsOnly r = true := by
        simp only [wlGo, spTab_not_lt hsp, Bool.false_eq_true, if_false, hsp,
          if_true] at hwl
        rwa [if_neg hstnc] at hwl
      have hnt0 : ntGo 0 r = true := by
        simpa only [ntGo, spTab_ne_nl hsp, Bool.false_eq_true, if_false] using hnt
      have hnt' : ntGo n r = true := by
        cases r with
        | nil => rfl
        | cons c' r'' =>
          have hclt : isLT c' = false := by
            cases hx : isLT c'
            · rfl
            · simp only [wlGo, hx, if_true, reduceIte] at hwl'
              exact absurd hwl' (by simp)
          have hcnn : (c' == '\n') = false := by
            cases hx : c' == '\n'
            · rfl
            · rw [lt_of_nl hx] at hclt
              exact absurd hclt (by simp)
          rw [ntGo_irrel n 0 c' r'' hcnn]
          exact hnt0
      have hout : siGo b (c :: r) = siGo true r := by
        simp [siGo, hb]
      rw [hout]
      exact ih .wsOnly true n (fun _ => by decide) hwl' hnt'
    · have hout : siGo b (c :: r) = c :: siGo (isLT c) r := by
        simp [siGo, hb]
      rw [hout]
      by_cases hlt : isLT c
      · rw [hlt]
        have hwl1 : st ≠ .wsOnly ∧ wlGo .start r = true := by
          simp only [wlGo, hlt, if_true] at hwl
          by_cases hst : st = .wsOnly
          · rw [if_pos hst] at hwl; cases hwl
          · rw [if_neg hst] at hwl; exact ⟨hst, hwl⟩
        by_cases hnl : c == '\n'
        · have hn2 : ¬ n ≥ 2 := by
            intro h2
            simp [ntGo, hnl, h2] at hnt
          have hnt1 : ntGo (n + 1) r = true := by
            simpa only [ntGo, hnl, if_true, hn2, if_false] using hnt
          simp only [ntGo, hnl, if_true, hn2, if_false]
          exact ih .start true (n + 1) (fun _ => by decide) hwl1.2 hnt1
        · have hnt1 : ntGo 0 r = true := by
            simpa only [ntGo, hnl, Bool.false_eq_true, if_false] using hnt
          simp only [ntGo, hnl, Bool.false_eq_true, if_false]
          exact ih .start true 0 (fun _ => by decide) hwl1.2 hnt1
      · have hnl : (c == '\n') = false := by
          cases hx : c == '\n'
          · rfl
          · exact absurd (lt_of_nl hx) hlt
        have hnt1 : ntGo 0 r = true := by
          simpa only [ntGo, hnl, Bool.false_eq_true, if_false] using hnt
        simp only [ntGo, hnl, Bool.false_eq_true, if_false]
        have hltf : isLT c = false := by
          cases hx : isLT c
          · rfl
          · exact absurd hx hlt
        rw [hltf]
        by_cases hsp : isSpTab c
        · have hwl1 : wlGo (if st = .content then .content else .wsOnly) r = true := by
            simpa only [wlGo, hltf, Bool.false_eq_true, if_false, hsp, if_true] using hwl
          exact ih _ false 0 (fun hf => absurd hf (by simp)) hwl1 hnt1
        · have hwl1 : wlGo .content r = true := by
            have hspf : isSpTab c = false := by
              cases hx : isSpTab c
              · rfl
              · exact absurd hx hsp
            simpa only [wlGo, hltf, Bool.false_eq_true, if_false, hspf] using hwl
          exact ih .content false 0 (fun hf => absurd hf (by simp)) hwl1 hnt1

/-- Collapsing newline runs cannot create a nonempty whitespace-only
line: it only deletes newlines inside runs, which erases empty lines and
leaves every nonempty line intact. -/
theorem wlGo_cnlGo : ∀ (l : List Char) (n : Nat) (st : LineSt),
    (1 ≤ n → st = .start) → wlGo st l = true → wlGo st (cnlGo n l) = true := by
  intro l
  induction l with
  | nil => intro n st _ h; exact h
  | cons c r ih =>
    intro n st hside hwl
    by_cases hnl : c == '\n'
    · have hlt : isLT c = true := lt_of_nl hnl
      have hwl1 : st ≠ .wsOnly ∧ wlGo .start r = true := by
        simp only [wlGo, hlt, if_true] at hwl
        by_cases hst : st = .wsOnly
        · rw [if_pos hst] at hwl; cases hwl
        · rw [if_neg hst] at hwl; exact ⟨hst, hwl⟩
      by_cases hn : n ≥ 2
      · have hst : st = .start := hside (by omega)
        subst hst
        simp only [cnlGo, hnl, if_true, hn]
        exact ih n .start (fun _ => rfl) hwl1.2
      · simp only [cnlGo, hnl, if_true, hn, if_false]
        have : isLT '\n' = true := rfl
        simp only [wlGo, this, if_true, if_neg hwl1.1]
        exact ih (n + 1) .start (fun _ => rfl) hwl1.2
    · simp only [cnlGo, hnl, Bool.false_eq_true, if_false]
      by_cases hlt : isLT c
      · have hwl1 : st ≠ .wsOnly ∧ wlGo .start r = true := by
          simp only [wlGo, hlt, if_true] at hwl
          by_cases hst : st = .wsOnly
          · rw [if_pos hst] at hwl; cases hwl
          · rw [if_neg hst] at hwl; exact ⟨hst, hwl⟩
        simp only [wlGo, hlt, if_true, if_neg hwl1.1]
        exact ih 0 .start (by omega) hwl1.2
      · have hltf : isLT c = false := by
          cases hx : isLT c
          · rfl
          · exact absurd hx hlt
        by_cases hsp : isSpTab c
        · have hwl1 : wlGo (if st = .content then .content else .wsOnly) r = true := by
            simpa only [wlGo, hltf, Bool.false_eq_true, if_false, hsp, if_true] using hwl
          simp only [wlGo, hltf, Bool.false_eq_true, if_false, hsp, if_true]
          exact ih 0 _ (by omega) hwl1
        · have hspf : isSpTab c = false := by
            cases hx : isSpTab c
            · rfl
            · exact absurd hx hsp
          have hwl1 : wlGo .content r = true := by
            simpa only [wlGo, hltf, Bool.false_eq_true, if_false, hspf] using hwl
          simp only [wlGo, hltf, Bool.false_eq_true, if_false, hspf]
          exact ih 0 .content (by omega) hwl1

/-! ### Character-membership lemmas: every pass only deletes or copies
characters, so a character absent from the input is absent from the
output. -/

theorem mem_cnlGo : ∀ (l : List Char) (n : Nat) (x : Char), x ∈ cnlGo n l → x ∈ l := by
  intro l
  induction l with
  | nil => intro n x h; simpa [cnlGo] using h
  | cons c r ih =>
    intro n x h
    by_cases hnl : c == '\n'
    · by_cases hn : n ≥ 2
      · simp only [cnlGo, hnl, if_true, hn] at h
        exact List.mem_cons_of_mem c (ih n x h)
      · simp only [cnlGo, hnl, if_true, hn, if_false, List.mem_cons] at h
        rcases h with h | h
        · have : c = '\n' := by simpa using hnl
          simp [this, h]
        · exact List.mem_cons_of_mem c (ih (n + 1) x h)
    · simp only [cnlGo, hnl, Bool.false_eq_true, if_false, List.mem_cons] at h
      rcases h with h | h
      · simp [h]
      · exact List.mem_cons_of_mem c (ih 0 x h)

theorem mem_siGo : ∀ (l : List Char) (b : Bool) (x : Char), x ∈ siGo b l → x ∈ l := by
  intro l
  induction l with
  | nil => intro b x h; simpa [siGo] using h
  | cons c r ih =>
    intro b x h
    by_cases hb : b && isSpTab c
    · simp only [siGo, hb, if_true] at h
      exact List.mem_cons_of_mem c (ih true x h)
    · simp only [siGo, hb, Bool.false_eq_true, if_false, List.mem_cons] at h
      rcases h with h | h
      · simp [h]
      · exact List.mem_cons_of_mem c (ih (isLT c) x h)

theorem mem_jsTrim (l : List Char) (x : Char) (h : x ∈ jsTrim l) : x ∈ l := by
  unfold jsTrim trimRightP trimLeftP at h
  rw [List.mem_reverse] at h
  have h1 := (List.dropWhile_suffix (l := (l.dropWhile jsWs).reverse) jsWs).subset h
  rw [List.mem_reverse] at h1
  exact (List.dropWhile_suffix (l := l) jsWs).subset h1

/-! ### Scan-decomposition lemmas for `ntGo` and `stGo` -/

theorem ntGo_mono : ∀ (l : List Char) (m n : Nat), m ≤ n →
    ntGo n l = true → ntGo m l = true := by
  intro l
  induction l with
  | nil => intro m n _ _; rfl
  | cons c r ih =>
    intro m n hmn h
    by_cases hnl : c == '\n'
    · by_cases hn : n ≥ 2
      · simp [ntGo, hnl, hn] at h
      · have hm : ¬ m ≥ 2 := by omega
        simp only [ntGo, hnl, if_true, hn, if_false] at h
        simp only [ntGo, hnl, if_true, hm, if_false]
        exact ih (m + 1) (n + 1) (by omega) h
    · simp only [ntGo, hnl, Bool.false_eq_true, if_false] at h ⊢
      exact h

theorem ntGo_append_exists : ∀ (t l : List Char) (n : Nat),
    ntGo n (t ++ l) = true → ∃ k, ntGo k l = true := by
  intro t
  induction t with
  | nil => intro l n h; exact ⟨n, h⟩
  | cons c t' ih =>
    intro l n h
    by_cases hnl : c == '\n'
    · by_cases hn : n ≥ 2
      · simp [ntGo, hnl, hn] at h
      · simp only [List.cons_append, ntGo, hnl, if_true, hn, if_false] at h
        exact ih l (n + 1) h
    · simp only [List.cons_append, ntGo, hnl, Bool.false_eq_true, if_false] at h
      exact ih l 0 h

theorem ntGo_append_left : ∀ (l t : List Char) (n : Nat),
    ntGo n (l ++ t) = true → ntGo n l = true := by
  intro l
  induction l with
  | nil => intro t n _; rfl
  | cons c r ih =>
    intro t n h
    by_cases hnl : c == '\n'
    · by_cases hn : n ≥ 2
      · simp [ntGo, hnl, hn] at h
      · simp only [List.cons_append, ntGo, hnl, if_true, hn, if_false] at h ⊢
        exact ih t (n + 1) h
    · simp only [List.cons_append, ntGo, hnl, Bool.false_eq_true, if_false] at h ⊢
      exact ih t 0 h

theorem stGo_append_exists : ∀ (t l : List Char) (b : Bool),
    stGo b (t ++ l) = true → ∃ f, stGo f l = true := by
  intro t
  induction t with
  | nil => intro l b h; exact ⟨b, h⟩
  | cons c t' ih =>
    intro l b h
    by_cases hb : b && isSpTab c
    · simp [stGo, hb] at h
    · simp only [List.cons_append, stGo, hb, Bool.false_eq_true, if_false] at h
      exact ih l (isLT c) h

theorem stGo_append_left : ∀ (l t : List Char) (b : Bool),
    stGo b (l ++ t) = true → stGo b l = true := by
  intro l
  induction l with
  | nil => intro t b _; rfl
  | cons c r ih =>
    intro t b h
    by_cases hb : b && isSpTab c
    · simp [stGo, hb] at h
    · simp only [List.cons_append, stGo, hb, Bool.false_eq_true, if_false] at h ⊢
      exact ih t (isLT c) h

theorem stGo_true_of_head : ∀ (l : List Char) (f : Bool),
    (∀ c r, l = c :: r → isSpTab c = false) →
    stGo f l = true → stGo true l = true := by
  intro l f hhead h
  cases l with
  | nil => rfl
  | cons c r =>
    have hsp := hhead c r rfl
    simp only [stGo, hsp, Bool.and_false, Bool.false_eq_true, if_false] at h ⊢
    exact h

/-! ### Trim decomposition and idempotence -/

theorem dropWhile_head_false {p : Char → Bool} :
    ∀ {l : List Char} {c : Char} {r : List Char}, l.dropWhile p = c :: r → p c = false := by
  intro l
  induction l with
  | nil => intro c r h; simp [List.dropWhile] at h
  | cons x xs ih =>
    intro c r h
    by_cases hx : p x
    · rw [List.dropWhile_cons_of_pos hx] at h
      exact ih h
    · rw [List.dropWhile_cons_of_neg hx] at h
      have h1 : x = c := by injection h
      subst h1
      simpa using hx

theorem dropWhile_self (p : Char → Bool) (l : List Char) :
    (l.dropWhile p).dropWhile p = l.dropWhile p := by
  cases h : l.dropWhile p with
  | nil => rfl
  | cons c r => rw [List.dropWhile_cons_of_neg (by simp [dropWhile_head_false h])]

theorem trimLeftP_decomp (p : Char → Bool) (l : List Char) :
    ∃ t, l = t ++ trimLeftP p l :=
  ⟨l.takeWhile p, (List.takeWhile_append_dropWhile ..).symm⟩

theorem trimRightP_decomp (p : Char → Bool) (l : List Char) :
    ∃ t, l = trimRightP p l ++ t := by
  refine ⟨(l.reverse.takeWhile p).reverse, ?_⟩
  conv_lhs => rw [← List.reverse_reverse l, ← List.takeWhile_append_dropWhile (p := p) (l := l.reverse)]
  rw [List.reverse_append]
  rfl

theorem trimLeftP_idem (p : Char → Bool) (l : List Char) :
    trimLeftP p (trimLeftP p l) = trimLeftP p l :=
  dropWhile_self p l

theorem trimRightP_idem (p : Char → Bool) (l : List Char) :
    trimRightP p (trimRightP p l) = trimRightP p l := by
  unfold trimRightP
  rw [List.reverse_reverse, dropWhile_self]

theorem trimLeftP_trimRightP (p : Char → Bool) (l : List Char)
    (h : trimLeftP p l = l) : trimLeftP p (trimRightP p l) = trimRightP p l := by
  cases hr : trimRightP p l with
  | nil => rfl
  | cons c r =>
    obtain ⟨t, ht⟩ := trimRightP_decomp p l
    rw [hr] at ht
    have hpc : p c = false := by
      cases hpc : p c
      · rfl
      · exfalso
        rw [ht] at h
        unfold trimLeftP at h
        rw [List.cons_append, List.dropWhile_cons_of_pos hpc] at h
        have hle := (List.dropWhile_sublist p (l := r ++ t)).length_le
        rw [h] at hle
        simp only [List.length_cons] at hle
        omega
    unfold trimLeftP
    rw [List.dropWhile_cons_of_neg (by simp [hpc])]

theorem jsTrim_idem (l : List Char) : jsTrim (jsTrim l) = jsTrim l := by
  unfold jsTrim
  rw [trimLeftP_trimRightP jsWs (trimLeftP jsWs l) (trimLeftP_idem jsWs l),
    trimRightP_idem]

theorem noTriple_jsTrim (l : List Char) (h : noTriple l = true) :
    noTriple (jsTrim l) = true := by
  unfold noTriple at h ⊢
  obtain ⟨t, ht⟩ := trimLeftP_decomp jsWs l
  rw [ht] at h
  obtain ⟨k, hk⟩ := ntGo_append_exists t _ 0 h
  have h0 : ntGo 0 (trimLeftP jsWs l) = true := ntGo_mono _ 0 k (Nat.zero_le k) hk
  obtain ⟨t', ht'⟩ := trimRightP_decomp jsWs (trimLeftP jsWs l)
  rw [ht'] at h0
  exact ntGo_append_left _ t' 0 h0

theorem strippedP_jsTrim (l : List Char) (h : strippedP l = true) :
    strippedP (jsTrim l) = true := by
  unfold strippedP at h ⊢
  obtain ⟨t, ht⟩ := trimLeftP_decomp jsWs l
  rw [ht] at h
  obtain ⟨f, hf⟩ := stGo_append_exists t _ true h
  have h1 : stGo true (trimLeftP jsWs l) = true := by
    refine stGo_true_of_head _ f ?_ hf
    intro c r hcr
    have hpc : jsWs c = false := dropWhile_head_false hcr
    cases hsp : isSpTab c
    · rfl
    · rw [spTab_jsWs hsp] at hpc; cases hpc
  obtain ⟨t', ht'⟩ := trimRightP_decomp jsWs (trimLeftP jsWs l)
  rw [ht'] at h1
  exact stGo_append_left _ t' true h1

/-! ### Pass 1 is the identity on bracket-free input -/

theorem linkFixGo_no_bracket : ∀ (fuel : Nat) (l : List Char),
    '[' ∉ l → linkFixGo fuel l = l := by
  intro fuel
  induction fuel with
  | zero => intro l _; cases l <;> rfl
  | succ f ih =>
    intro l hmem
    cases l with
    | nil => rfl
    | cons c rest =>
      have hc : (c == '[') = false := by
        cases hx : c == '['
        · rfl
        · exact absurd (List.mem_cons_self c rest) (by simpa [show c = '[' by simpa using hx] using hmem)
      simp only [linkFixGo, hc, Bool.false_eq_true, if_false]
      rw [ih rest (fun hr => hmem (List.mem_cons_of_mem c hr))]

theorem linkFixAux_no_bracket (l : List Char) (h : '[' ∉ l) : linkFixAux l = l :=
  linkFixGo_no_bracket l.length l h

/-! ### Idempotence of `tidyMarkdown` on inputs without whitespace-only
lines and without brackets -/

theorem tidyList_fixed (l : List Char)
    (h1 : noWsOnlyLine l = true) (h2 : '[' ∉ l) :
    tidyList (tidyList l) = tidyList l := by
  have hlf : linkFixAux l = l := linkFixAux_no_bracket l h2
  have hy : tidyList l = jsTrim (stripIndent (collapseNL l)) := by
    unfold tidyList
    rw [hlf]
  -- facts about y := tidyList l
  have hmem : '[' ∉ tidyList l := by
    rw [hy]
    intro hm
    exact h2 (mem_cnlGo l 0 '[' (mem_siGo _ true '[' (mem_jsTrim _ '[' hm)))
  have hnt_c : noTriple (collapseNL l) = true := ntGo_cnlGo l 0
  have hwl_c : noWsOnlyLine (collapseNL l) = true :=
    wlGo_cnlGo l 0 .start (by omega) h1
  have hnt_s : noTriple (stripIndent (collapseNL l)) = true :=
    ntGo_siGo (collapseNL l) .start true 0 (fun _ => by decide) hwl_c hnt_c
  have hst_s : strippedP (stripIndent (collapseNL l)) = true :=
    stGo_siGo (collapseNL l) true
  have hnt_y : noTriple (tidyList l) = true := by
    rw [hy]; exact noTriple_jsTrim _ hnt_s
  have hst_y : strippedP (tidyList l) = true := by
    rw [hy]; exact strippedP_jsTrim _ hst_s
  have htrim_y : jsTrim (tidyList l) = tidyList l := by
    rw [hy]; exact jsTrim_idem _
  have hexp : tidyList (tidyList l) =
      jsTrim (stripIndent (collapseNL (linkFixAux (tidyList l)))) := rfl
  rw [hexp, linkFixAux_no_bracket _ hmem,
    show collapseNL (tidyList l) = tidyList l from cnlGo_of_ntGo _ 0 hnt_y,
    show stripIndent (tidyList l) = tidyList l from siGo_of_stGo _ true hst_y]
  exact htrim_y

/-! ## Substring helper lemmas -/

theorem startsWithL_refl : ∀ l : List Char, startsWithL l l = true := by
  intro l
  induction l with
  | nil => rfl
  | cons c cs ih => simp [startsWithL, ih]

theorem containsSub_of_startsWith : ∀ (p l : List Char),
    startsWithL p l = true → containsSub p l = true := by
  intro p l h
  cases l with
  | nil => simpa [containsSub] using h
  | cons c cs => simp [containsSub, h]

theorem containsSub_suffix : ∀ (a b : List Char), containsSub b (a ++ b) = true := by
  intro a
  induction a with
  | nil =>
    intro b
    simpa using containsSub_of_startsWith b b (startsWithL_refl b)
  | cons c a' ih =>
    intro b
    simp [containsSub, ih b]

theorem startsWithL_extend : ∀ (p q r : List Char),
    startsWithL p q = true → startsWithL p (q ++ r) = true := by
  intro p
  induction p with
  | nil => intro q r _; rfl
  | cons x p' ih =>
    intro q r h
    cases q with
    | nil => simp [startsWithL] at h
    | cons y q' =>
      simp only [startsWithL, Bool.and_eq_true] at h
      simp only [List.cons_append, startsWithL, Bool.and_eq_true]
      exact ⟨h.1, ih q' r h.2⟩

/-- Claim C3, counterexample.  `tidyMarkdown` is not idempotent: in
"a\n\n \n\nb" the middle line consists of a single space, so passes 1
and 2 leave the input unchanged (no link, no triple newline), pass 3
erases the space and creates a run of four newlines, which only the
next application's pass 2 collapses. -/
theorem c3_tidyMarkdown_not_idempotent :
    tidyMarkdown (tidyMarkdown "a\n\n \n\nb") ≠ tidyMarkdown "a\n\n \n\nb" := by
  decide

/-- Claim C3 (amended): `tidyMarkdown` is idempotent on every input that
contains no nonempty line consisting solely of spaces and tabs and no
opening bracket (so the link-repair pass does not fire).  In general the
claim fails: see `c3_tidyMarkdown_not_idempotent`. -/
theorem c3_tidyMarkdown_idempotent_amended (s : String)
    (h1 : noWsOnlyLine s.data = true) (h2 : '[' ∉ s.data) :
    tidyMarkdown (tidyMarkdown s) = tidyMarkdown s := by
  show String.mk (tidyList (String.mk (tidyList s.data)).data) = String.mk (tidyList s.data)
  have hdata : (String.mk (tidyList s.data)).data = tidyList s.data := rfl
  rw [hdata, tidyList_fixed s.data h1 h2]

/-- Claim C3, witness: the amended idempotence theorem applied at a
concrete input satisfying both hypotheses. -/
theorem c3_witness :
    noWsOnlyLine ("ab \n\n cd" : String).data = true ∧
      '[' ∉ ("ab \n\n cd" : String).data ∧
      tidyMarkdown (tidyMarkdown "ab \n\n cd") = tidyMarkdown "ab \n\n cd" :=
  ⟨by decide, by decide,
    c3_tidyMarkdown_idempotent_amended "ab \n\n cd" (by decide) (by decide)⟩

/-- Claim C1 (code-bug evidence): the `retainImages` option is declared
in the options interface but never consumed anywhere in the
implementation — `htmlToMarkdown` is literally the same function for
every value of the option — and with `retainImages: 'none'` an ordinary
(non-data-URL) image still renders as a full image reference including
its alt text. -/
theorem c1_retainImages_never_consumed :
    (∀ (opts : WebToMarkdownOptions) (r : Option RetainImages)
       (dp : String → Option String) (html : String) (url : Option String),
        htmlToMarkdown { opts with retainImages := r } dp html url =
          htmlToMarkdown opts dp html url) ∧
    htmlToMarkdown { retainImages := some RetainImages.none } (fun _ => Option.none)
        "<p><img src=\"http://e/i.png\" alt=\"PIC\"></p>" Option.none =
      "Title: Untitled\n\nMarkdown Content:\n![PIC](http://e/i.png)" ∧
    strContains
      (htmlToMarkdown { retainImages := some RetainImages.none } (fun _ => Option.none)
        "<p><img src=\"http://e/i.png\" alt=\"PIC\"></p>" Option.none) "![PIC]" = true := by
  refine ⟨fun opts r dp html url => rfl, by decide, by decide⟩

/-- Claim C2 (code-bug evidence): `'table'` is a truthy value, so
`if (!options?.noGfm)` skips the whole GFM block when `noGfm: 'table'`
is set and no extension is enabled at all; the inner
`noGfm === 'table'` branch is unreachable (last conjunct).  With
`noGfm` absent or `false` all four gfm plugins are applied; with `true`
or `'table'` none are, so `'table'` configures the identical rule table
as `true`. -/
theorem c2_noGfm_table_disables_all_gfm :
    gfmPluginsApplied (some NoGfmOpt.asTable) = [] ∧
    gfmPluginsApplied (some NoGfmOpt.asTrue) = [] ∧
    gfmPluginsApplied Option.none =
      [GfmPlugin.highlightedCodeBlock, GfmPlugin.strikethrough, GfmPlugin.tables,
       GfmPlugin.taskListItems] ∧
    gfmPluginsApplied (some NoGfmOpt.asFalse) =
      [GfmPlugin.highlightedCodeBlock, GfmPlugin.strikethrough, GfmPlugin.tables,
       GfmPlugin.taskListItems] ∧
    ((configureTurndownService { noGfm := some NoGfmOpt.asTable }).arr.map TRule.name =
      (configureTurndownService { noGfm := some NoGfmOpt.asTrue }).arr.map TRule.name) ∧
    (∀ g : Option NoGfmOpt, jsTruthyNoGfm g = false → g ≠ some NoGfmOpt.asTable) := by
  refine ⟨rfl, rfl, rfl, rfl, rfl, ?_⟩
  intro g hg heq
  subst heq
  simp [jsTruthyNoGfm] at hg

/-- Claim C2, witness: the unreachability statement applied at
`noGfm: false`, the one falsy non-absent value. -/
theorem c2_witness :
    jsTruthyNoGfm (some NoGfmOpt.asFalse) = false ∧
    some NoGfmOpt.asFalse ≠ some NoGfmOpt.asTable :=
  ⟨rfl, c2_noGfm_table_disables_all_gfm.2.2.2.2.2 (some NoGfmOpt.asFalse) rfl⟩

/-- Claim C6: the whole conversion is a pure function (two calls agree),
the data-URL placeholder is `blob:` followed by the MD5 of the `src`
value alone — so equal `src` values always map to the same placeholder,
whatever the alt text or surrounding document — and on the spec's
example input the conversion produces exactly the fixed hash
`74a2f0f667739cfd62a284688a75dcfd` of
`data:image/png;base64,AAAA`. -/
theorem c6_deterministic_fixed_placeholder :
    (∀ (opts : WebToMarkdownOptions) (dp : String → Option String) (html : String)
       (url : Option String),
        htmlToMarkdown opts dp html url = htmlToMarkdown opts dp html url) ∧
    (∀ (content : String) (ctx : RCtx) (src : String),
        ctx.node.getAttribute "src" = some src →
        ∃ altText, dataUrlRule.replacement content ctx =
          "![" ++ altText ++ "](blob:" ++ md5hex src ++ ")") ∧
    htmlToMarkdown { imgDataUrlToObjectUrl := some true } (fun _ => Option.none)
        "<p><img src=\"data:image/png;base64,AAAA\" alt=\"x\"></p>" Option.none =
      "Title: Untitled\n\nMarkdown Content:\n![x](blob:74a2f0f667739cfd62a284688a75dcfd)" ∧
    md5hex "data:image/png;base64,AAAA" = "74a2f0f667739cfd62a284688a75dcfd" := by
  refine ⟨fun _ _ _ _ => rfl, ?_, by decide, by decide⟩
  intro content ctx src h
  refine ⟨cleanAttribute (ctx.node.getAttribute "alt"), ?_⟩
  simp [dataUrlRule, h]

/-- Claim C6, witness: the placeholder characterization applied at a
concrete image context. -/
theorem c6_witness :
    c6ImgCtx.node.getAttribute "src" = some "data:z" ∧
    ∃ altText, dataUrlRule.replacement "" c6ImgCtx =
      "![" ++ altText ++ "](blob:" ++ md5hex "data:z" ++ ")" :=
  ⟨rfl, c6_deterministic_fixed_placeholder.2.1 "" c6ImgCtx "data:z" rfl⟩

/-- Claim C9: whenever the fetch collaborator fails with an `Error`
carrying message `m`, `urlToMarkdown` returns (only) a wrapped error
whose message is `Failed to fetch URL: ` followed by `m` — the message
both describes the fetch failure and contains the original message, and
no converted output is produced. -/
theorem c9_fetch_error_wrapped (opts : WebToMarkdownOptions)
    (dp : String → Option String) (fetch : String → FetchOutcome) (url m : String)
    (h : fetch url = FetchOutcome.failure (JsThrown.errorV m)) :
    urlToMarkdown opts dp fetch url =
      Except.error (JsThrown.errorV ("Failed to fetch URL: " ++ m)) ∧
    strContains ("Failed to fetch URL: " ++ m) m = true ∧
    strContains ("Failed to fetch URL: " ++ m) "Failed to fetch URL" = true := by
  refine ⟨?_, ?_, ?_⟩
  · unfold urlToMarkdown
    rw [h]
  · show containsSub m.data ("Failed to fetch URL: " ++ m).data = true
    have hd : ("Failed to fetch URL: " ++ m).data = "Failed to fetch URL: ".data ++ m.data := by
      simp [String.data_append]
    rw [hd]
    exact containsSub_suffix _ _
  · show containsSub "Failed to fetch URL".data ("Failed to fetch URL: " ++ m).data = true
    have hd : ("Failed to fetch URL: " ++ m).data = "Failed to fetch URL: ".data ++ m.data := by
      simp [String.data_append]
    rw [hd]
    exact containsSub_of_startsWith _ _
      (startsWithL_extend _ _ _ (by decide))

/-- Claim C9, witness: the wrapping theorem applied at a concrete
failing fetch. -/
theorem c9_witness :
    urlToMarkdown {} (fun _ => Option.none)
        (fun _ => FetchOutcome.failure (JsThrown.errorV "boom")) "http://e" =
      Except.error (JsThrown.errorV ("Failed to fetch URL: " ++ "boom")) ∧
    strContains ("Failed to fetch URL: " ++ "boom") "boom" = true ∧
    strContains ("Failed to fetch URL: " ++ "boom") "Failed to fetch URL" = true :=
  c9_fetch_error_wrapped {} (fun _ => Option.none)
    (fun _ => FetchOutcome.failure (JsThrown.errorV "boom")) "http://e" "boom" rfl

/-- Claim C10 (implicit): a thrown value that is not an `Error` instance
is re-raised entirely unchanged — no `Failed to fetch URL: ` context is
attached (the result is not even an `Error`-shaped value). -/
theorem c10_non_error_rethrown_unchanged (opts : WebToMarkdownOptions)
    (dp : String → Option String) (fetch : String → FetchOutcome) (url v : String)
    (h : fetch url = FetchOutcome.failure (JsThrown.otherV v)) :
    urlToMarkdown opts dp fetch url = Except.error (JsThrown.otherV v) ∧
    (∀ m : String, JsThrown.otherV v ≠ JsThrown.errorV m) := by
  constructor
  · unfold urlToMarkdown
    rw [h]
  · intro m hm
    cases hm

/-- Claim C10, witness: the pass-through theorem applied at a concrete
non-`Error` thrown value. -/
theorem c10_witness :
    urlToMarkdown {} (fun _ => Option.none)
        (fun _ => FetchOutcome.failure (JsThrown.otherV "a plain string")) "http://e" =
      Except.error (JsThrown.otherV "a plain string") ∧
    (∀ m : String, JsThrown.otherV "a plain string" ≠ JsThrown.errorV m) :=
  c10_non_error_rethrown_unchanged {} (fun _ => Option.none)
    (fun _ => FetchOutcome.failure (JsThrown.otherV "a plain string")) "http://e"
    "a plain string" rfl

/-! ## Rule-table decomposition lemmas (for C4) -/

theorem strData_inj {a b : String} (h : a.data = b.data) : a = b :=
  congrArg String.mk h

theorem find?_append_none {α : Type} {p : α → Bool} {l1 l2 : List α}
    (h : l1.find? p = Option.none) : (l1 ++ l2).find? p = l2.find? p := by
  induction l1 with
  | nil => rfl
  | cons a l ih =>
    by_cases hp : p a
    · simp [List.find?_cons_of_pos _ hp] at h
    · simp only [List.find?_cons_of_neg _ hp] at h
      simp [List.cons_append, List.find?_cons_of_neg _ hp, ih h]

theorem find?_append_some {α : Type} {p : α → Bool} {l1 l2 : List α} {a : α}
    (h : l1.find? p = some a) : (l1 ++ l2).find? p = some a := by
  induction l1 with
  | nil => simp [List.find?] at h
  | cons b l ih =>
    by_cases hp : p b
    · simp only [List.find?_cons_of_pos _ hp] at h
      simp [List.cons_append, List.find?_cons_of_pos _ hp, h]
    · simp only [List.find?_cons_of_neg _ hp] at h
      simp [List.cons_append, List.find?_cons_of_neg _ hp, ih h]

theorem all_find?_none {α : Type} {p : α → Bool} {l : List α}
    (h : l.all (fun x => !p x) = true) : l.find? p = Option.none := by
  rw [List.find?_eq_none]
  intro x hx
  have := (List.all_eq_true.mp h) x hx
  simp at this
  simp [this]

theorem foldl_addRule_arr (l : List (String × TRule)) (t : RuleTable) :
    (l.foldl (fun t kr => addRule t kr.2) t).arr = (l.map Prod.snd).reverse ++ t.arr := by
  induction l generalizing t with
  | nil => rfl
  | cons p l ih =>
    simp only [List.foldl_cons]
    rw [ih]
    simp [addRule, List.reverse_cons, List.append_assoc]

theorem addKeep_arr (t : RuleTable) (f : RCtx → Bool) : (addKeep t f).arr = t.arr := rfl

theorem addRule_arr (t : RuleTable) (r : TRule) : (addRule t r).arr = r :: t.arr := rfl

/-- The rule array built by `configureTurndownService`, fully
decomposed: GFM rules first, then `improved-paragraph`, then the custom
rules latest-first, the data-URL rule, the three early convenience
rules, and the CommonMark baseline. -/
theorem configArr_decomp (opts : WebToMarkdownOptions) :
    (configureTurndownService opts).arr =
      gfmArr opts.noGfm ++ improvedParagraphRule ::
        ((opts.customRules.map Prod.snd).reverse ++
          (dataUrlBlock opts.imgDataUrlToObjectUrl ++
            ([titleAsH1Rule, truncateSvgRule, removeIrrelevantRule] ++ commonmarkRules))) := by
  unfold configureTurndownService
  have harr : ∀ t0 : RuleTable,
      (match opts.customKeep with
       | some f => addKeep t0 f
       | Option.none => t0).arr = t0.arr := by
    intro t0; cases opts.customKeep <;> rfl
  have hdu : ∀ t0 : RuleTable,
      (match opts.imgDataUrlToObjectUrl with
       | some true => addRule t0 dataUrlRule
       | _ => t0).arr = dataUrlBlock opts.imgDataUrlToObjectUrl ++ t0.arr := by
    intro t0
    match opts.imgDataUrlToObjectUrl with
    | Option.none => rfl
    | some true => rfl
    | some false => rfl
  have hgfm : ∀ t0 : RuleTable,
      ((gfmPluginsApplied opts.noGfm).foldl applyGfmPlugin t0).arr =
        gfmArr opts.noGfm ++ t0.arr := by
    intro t0
    unfold gfmPluginsApplied gfmArr
    by_cases ht : jsTruthyNoGfm opts.noGfm = true
    · simp [ht]
    · have ht' : jsTruthyNoGfm opts.noGfm = false := by
        cases h : jsTruthyNoGfm opts.noGfm
        · rfl
        · exact absurd h ht
      by_cases htbl : opts.noGfm = some NoGfmOpt.asTable
      · rw [htbl] at ht'
        simp [jsTruthyNoGfm] at ht'
      · simp [ht', htbl, applyGfmPlugin, addRule, addKeep]
  rw [hgfm]
  congr 1
  rw [addRule_arr]
  congr 1
  rw [foldl_addRule_arr]
  congr 1
  rw [hdu]
  congr 1
  rw [addRule_arr, addRule_arr, addRule_arr, harr]
  rfl

/-- Claim C4 (amended): the custom rules land in the middle of the rule
array — after (hence losing to) the GFM rules and `improved-paragraph`
whenever one of those matches the element, before (hence beating) the
data-URL rule, the convenience rules (`remove-irrelevant`,
`truncate-svg`, `title-as-h1`) and the whole CommonMark baseline — and
among custom rules later registration wins.  Formally: the array
decomposes as stated (first conjunct); on any non-blank element not
matched by any GFM rule nor by `improved-paragraph`, the dispatched
rule is the last-registered matching custom rule, whatever baseline
rules also match (second conjunct); so a custom rule still fires when
the overriding rules' filters decline the element — for a headerless
table the gfm `table` filter fails and only the gfm keep-filter
matches, which is consulted after the rule array, so a custom table
rule is dispatched and its replacement reaches the output (last three
conjuncts).  A custom `p` rule, by contrast, can never fire, since
`improved-paragraph` matches every `p`: see
`c4_custom_paragraph_counterexample`. -/
theorem c4_custom_rule_precedence_amended :
    (∀ opts : WebToMarkdownOptions,
      (configureTurndownService opts).arr =
        gfmArr opts.noGfm ++ improvedParagraphRule ::
          ((opts.customRules.map Prod.snd).reverse ++
            (dataUrlBlock opts.imgDataUrlToObjectUrl ++
              ([titleAsH1Rule, truncateSvgRule, removeIrrelevantRule] ++
                commonmarkRules)))) ∧
    (∀ (opts : WebToMarkdownOptions) (ctx : RCtx) (r : TRule),
      isBlankElem ctx.node = false →
      (gfmArr opts.noGfm).all (fun g => !g.filter ctx) = true →
      improvedParagraphRule.filter ctx = false →
      ((opts.customRules.map Prod.snd).reverse.find? fun c => c.filter ctx) = some r →
      tdForNode (configureTurndownService opts) ctx = r) ∧
    tableKeepFilter c4TableCtx = true ∧
    tdForNode (configureTurndownService { customRules := [("custom-table", c4CustomTable)] })
      c4TableCtx = c4CustomTable ∧
    htmlToMarkdown { customRules := [("custom-table", c4CustomTable)] }
        (fun _ => Option.none) "<table><tr><td>a</td></tr></table>" Option.none =
      "Title: Untitled\n\nMarkdown Content:\nTBL" := by
  refine ⟨configArr_decomp, ?_, by decide, rfl, by decide⟩
  intro opts ctx r hblank hgfm himp hfind
  unfold tdForNode
  rw [hblank]
  simp only [Bool.false_eq_true, if_false]
  rw [configArr_decomp, find?_append_none (all_find?_none hgfm),
    List.find?_cons_of_neg _ (by simp [himp]), find?_append_some hfind]

/-- Claim C4, counterexample.  A caller-registered custom rule for `p`
elements is overridden by the baseline `improved-paragraph` rule, which
`configureTurndownService` registers after all custom rules: the
paragraph renders as `hi`, and the custom replacement `CUSTOM` appears
nowhere in the output. -/
theorem c4_custom_paragraph_counterexample :
    htmlToMarkdown { customRules := [("custom-p", c4CustomP)] } (fun _ => Option.none)
        "<p>hi</p>" Option.none = "Title: Untitled\n\nMarkdown Content:\nhi" ∧
    strContains
      (htmlToMarkdown { customRules := [("custom-p", c4CustomP)] } (fun _ => Option.none)
        "<p>hi</p>" Option.none) "CUSTOM" = false :=
  ⟨by decide, by decide⟩

/-- Claim C4, witness: the precedence theorem applied at a `meta`
element matched by two custom rules and by the baseline
`remove-irrelevant` rule — the later-registered custom rule is
dispatched. -/
theorem c4_witness :
    isBlankElem c4MetaCtx.node = false ∧
    (gfmArr c4Opts.noGfm).all (fun g => !g.filter c4MetaCtx) = true ∧
    improvedParagraphRule.filter c4MetaCtx = false ∧
    ((c4Opts.customRules.map Prod.snd).reverse.find? fun c => c.filter c4MetaCtx) =
      some c4CustomMeta2 ∧
    removeIrrelevantRule.filter c4MetaCtx = true ∧
    tdForNode (configureTurndownService c4Opts) c4MetaCtx = c4CustomMeta2 :=
  ⟨rfl, rfl, rfl, rfl, rfl,
    c4_custom_rule_precedence_amended.2.1 c4Opts c4MetaCtx c4CustomMeta2 rfl rfl rfl rfl⟩

/-- Claim C5, counterexample.  With GFM fully enabled (default
options), a table whose content is exactly `<tr><td>a</td></tr>` has no
heading row, so the gfm tables plugin keeps it as raw HTML: the output
contains no pipe at all. -/
theorem c5_headerless_table_counterexample :
    htmlToMarkdown {} (fun _ => Option.none) c5Headerless Option.none =
      "Title: Untitled\n\nMarkdown Content:\n<table><tr><td>a</td></tr></table>" ∧
    strContains (htmlToMarkdown {} (fun _ => Option.none) c5Headerless Option.none) "|" =
      false :=
  ⟨by decide, by decide⟩

/-- Claim C5 (amended): pipes do appear once the first row is a heading
row (first two conjuncts); the `rows` attachment is computed and then
discarded — the output equals that of the attachment-free pipeline for
every input (third conjunct) — and the attached accessor is not the one
the renderer's table logic uses: for a nested table it lists all
descendant rows (`[2, 1]`) while the renderer-side native `rows` of the
outer table holds only its own row (`1`); the nested headerless table
again renders as raw HTML (last conjunct).  In general the claim fails:
see `c5_headerless_table_counterexample`. -/
theorem c5_table_rendering_amended :
    htmlToMarkdown {} (fun _ => Option.none) c5Th Option.none =
      "Title: Untitled\n\nMarkdown Content:\n| h |\n| --- |\n| a |" ∧
    strContains (htmlToMarkdown {} (fun _ => Option.none) c5Th Option.none) "|" = true ∧
    (∀ (opts : WebToMarkdownOptions) (dp : String → Option String) (html : String)
       (url : Option String),
      htmlToMarkdown opts dp html url = htmlToMarkdownWithoutRowsAttachment opts dp html url) ∧
    (attachedTableRows c5NestedMain).map (fun p => p.2.length) = [2, 1] ∧
    (tableRows c5OuterChildren).length = 1 ∧
    strContains (htmlToMarkdown {} (fun _ => Option.none) c5Nested Option.none) "|" =
      false :=
  ⟨by decide, by decide, fun _ _ _ _ => rfl, by decide, by decide, by decide⟩

/-! ## Header assembly (for C7) -/

theorem str_ne_empty_of_data {a : String} (h : a.data ≠ []) : a ≠ "" := by
  intro he
  exact h (by rw [he])

theorem title_field_ne (t : String) : ("Title: " ++ t) ≠ "" := by
  apply str_ne_empty_of_data
  simp [String.data_append]

theorem url_field_ne (u : String) : ("\nURL Source: " ++ u) ≠ "" := by
  apply str_ne_empty_of_data
  simp [String.data_append]

theorem pt_field_ne (p : String) : ("\nPublished Time: " ++ p) ≠ "" := by
  apply str_ne_empty_of_data
  simp [String.data_append]

theorem marker_field_ne : ("\nMarkdown Content:" : String) ≠ "" := by decide

/-- The `filter(Boolean).join('\n')` header of `htmlToMarkdown` equals
the spec-shaped `headerFor`, for every title, url, published time and
body. -/
theorem header_assembly (t md : String) (url pt : Option String) :
    jsJoinNl ((["Title: " ++ t,
      (match url with
       | some u => if u = "" then "" else "\nURL Source: " ++ u
       | Option.none => ""),
      (match pt with
       | some p => if p = "" then "" else "\nPublished Time: " ++ p
       | Option.none => ""),
      "\nMarkdown Content:"] : List String).filter fun f => f ≠ "") ++ "\n" ++ md
    = headerFor t url pt ++ md := by
  have hfu : ∀ (a b : List String),
      ((("Title: " ++ t) :: a ++ b : List String).filter fun f => f ≠ "") =
        ("Title: " ++ t) :: ((a ++ b : List String).filter fun f => f ≠ "") := by
    intro a b
    simp [List.filter_cons, title_field_ne t]
  have hurl :
      (match url with
       | some u => if u = "" then "" else "\nURL Source: " ++ u
       | Option.none => "") =
        (match url with
         | some u => if u = "" then "" else "\nURL Source: " ++ u
         | Option.none => "") := rfl
  apply strData_inj
  rcases url with _ | u
  · rcases pt with _ | p
    · simp [headerFor, jsJoinNl, List.filter, title_field_ne t, marker_field_ne,
        String.data_append, List.append_assoc]
    · by_cases hp : p = ""
      · simp [headerFor, jsJoinNl, List.filter, title_field_ne t, marker_field_ne, hp,
          String.data_append, List.append_assoc]
      · simp [headerFor, jsJoinNl, List.filter, title_field_ne t, marker_field_ne, hp,
          pt_field_ne p, String.data_append, List.append_assoc]
  · by_cases hu : u = ""
    · rcases pt with _ | p
      · simp [headerFor, jsJoinNl, List.filter, title_field_ne t, marker_field_ne, hu,
          String.data_append, List.append_assoc]
      · by_cases hp : p = ""
        · simp [headerFor, jsJoinNl, List.filter, title_field_ne t, marker_field_ne, hu,
            hp, String.data_append, List.append_assoc]
        · simp [headerFor, jsJoinNl, List.filter, title_field_ne t, marker_field_ne, hu,
            hp, pt_field_ne p, String.data_append, List.append_assoc]
    · rcases pt with _ | p
      · simp [headerFor, jsJoinNl, List.filter, title_field_ne t, marker_field_ne, hu,
          url_field_ne u, String.data_append, List.append_assoc]
      · by_cases hp : p = ""
        · simp [headerFor, jsJoinNl, List.filter, title_field_ne t, marker_field_ne, hu,
            url_field_ne u, hp, String.data_append, List.append_assoc]
        · simp [headerFor, jsJoinNl, List.filter, title_field_ne t, marker_field_ne, hu,
            url_field_ne u, hp, pt_field_ne p, String.data_append, List.append_assoc]

/-- Claim C7, counterexample.  "when no url is given the output
contains no `URL Source:` line" fails as a statement about the whole
output: body text is rendered verbatim, so a paragraph reading
`URL Source: x` puts that line into the output of a URL-less
conversion. -/
theorem c7_url_source_counterexample :
    strContains (htmlToMarkdown {} (fun _ => Option.none) "<p>URL Source: x</p>"
      Option.none) "URL Source:" = true :=
  by decide

/-- Claim C7 (amended): every output is exactly the fixed-order header
— Title, URL Source (when a nonempty url argument was given),
Published Time (when a nonempty one was extracted), the literal
`Markdown Content:` marker — followed by the rendered body (first
conjunct); the Title field is the `<title>` text with `Untitled`
substituted when the element is missing or its text empty (second
conjunct); on the spec's example the output begins with
`Title: My Page` and, the body containing no such text, has no
`URL Source:` line anywhere (last conjuncts).  The no-`URL Source:`
sentence holds only of the header, not of the whole output: see
`c7_url_source_counterexample`. -/
theorem c7_header_structure_amended :
    (∀ (opts : WebToMarkdownOptions) (dp : String → Option String) (html : String)
       (url : Option String),
      htmlToMarkdown opts dp html url =
        headerFor (titleOf (parseDocument (cleanHTML html))) url
          (extractPublishedTime dp (hostnameOf url) (parseDocument (cleanHTML html))) ++
        turndown (configureTurndownService opts)
          (extractMainContent (hostnameOf url)
            (cleanupDocument (parseDocument (cleanHTML html)))).innerHTML) ∧
    (∀ doc : IElem,
      (doc.querySelector "title" = Option.none → titleOf doc = "Untitled") ∧
      (∀ el, doc.querySelector "title" = some el → el.textContent = "" →
        titleOf doc = "Untitled") ∧
      (∀ el, doc.querySelector "title" = some el → el.textContent ≠ "" →
        titleOf doc = el.textContent)) ∧
    startsWithL "Title: My Page".data
      (htmlToMarkdown {} (fun _ => Option.none) c7Ex Option.none).data = true ∧
    strContains (htmlToMarkdown {} (fun _ => Option.none) c7Ex Option.none)
      "URL Source:" = false ∧
    startsWithL "Title: My Page\n\nURL Source: http://example.com/a\n\nMarkdown Content:\n".data
      (htmlToMarkdown {} (fun _ => Option.none) c7Ex (some "http://example.com/a")).data =
      true := by
  refine ⟨?_, ?_, by decide, by decide, by decide⟩
  · intro opts dp html url
    exact header_assembly (titleOf (parseDocument (cleanHTML html)))
      (turndown (configureTurndownService opts)
        (extractMainContent (hostnameOf url)
          (cleanupDocument (parseDocument (cleanHTML html)))).innerHTML)
      url (extractPublishedTime dp (hostnameOf url) (parseDocument (cleanHTML html)))
  · intro doc
    refine ⟨?_, ?_, ?_⟩
    · intro h
      unfold titleOf
      rw [h]
    · intro el h he
      unfold titleOf
      rw [h]
      simp [he]
    · intro el h he
      unfold titleOf
      rw [h]
      simp [he]

/-- Claim C7, witness: the structural and Untitled-default parts of the
amended theorem applied at concrete inputs (a document with no `title`
element, and the spec's example conversion). -/
theorem c7_witness :
    (parseDocument (cleanHTML "<p>x</p>")).querySelector "title" = Option.none ∧
    titleOf (parseDocument (cleanHTML "<p>x</p>")) = "Untitled" ∧
    htmlToMarkdown {} (fun _ => Option.none) "<p>x</p>" Option.none =
      headerFor (titleOf (parseDocument (cleanHTML "<p>x</p>"))) Option.none
        (extractPublishedTime (fun _ => Option.none) (hostnameOf Option.none)
          (parseDocument (cleanHTML "<p>x</p>"))) ++
      turndown (configureTurndownService {})
        (extractMainContent (hostnameOf Option.none)
          (cleanupDocument (parseDocument (cleanHTML "<p>x</p>")))).innerHTML :=
  ⟨by decide,
    (c7_header_structure_amended.2.1 (parseDocument (cleanHTML "<p>x</p>"))).1 (by decide),
    c7_header_structure_amended.1 {} (fun _ => Option.none) "<p>x</p>" Option.none⟩

/-! ## Occurrence and pruning lemmas (for C8) -/

theorem occF_shape (f : IForest) : ∀ (anc ch : List EInfo) (e : EInfo),
    (ch, e) ∈ occF anc f → ∃ mid, ch = mid ++ anc := by
  induction f with
  | nil => intro anc ch e h; simp [occF] at h
  | text s r ih => intro anc ch e h; exact ih anc ch e h
  | elem i t a cs r ihc ihr =>
    intro anc ch e h
    simp only [occF, List.mem_cons, List.mem_append] at h
    rcases h with h | h | h
    · exact ⟨[], by simpa using congrArg Prod.fst h⟩
    · obtain ⟨mid, hm⟩ := ihc (⟨i, t, a⟩ :: anc) ch e h
      exact ⟨mid ++ [⟨i, t, a⟩], by simp [hm, List.append_assoc]⟩
    · exact ihr anc ch e h

theorem mid_of_append_cons {mid anc mid2 : List EInfo} {E : EInfo}
    (h : mid ++ anc = mid2 ++ (E :: anc)) : mid = mid2 ++ [E] := by
  have h2 : mid ++ anc = (mid2 ++ [E]) ++ anc := by simp [h, List.append_assoc]
  exact (List.append_inj' h2 rfl).1

theorem occF_pruneF (p : EInfo → Bool) (f : IForest) :
    ∀ (anc mid : List EInfo) (e : EInfo),
      ((mid ++ anc, e) ∈ occF anc (pruneF p f)) ↔
        ((mid ++ anc, e) ∈ occF anc f ∧ p e = false ∧ ∀ a ∈ mid, p a = false) := by
  induction f with
  | nil => intro anc mid e; simp [pruneF, occF]
  | text s r ih => intro anc mid e; simpa [pruneF, occF] using ih anc mid e
  | elem i t a cs r ihc ihr =>
    intro anc mid e
    by_cases hpe : p ⟨i, t, a⟩ = true
    · rw [show pruneF p (.elem i t a cs r) = pruneF p r by simp [pruneF, hpe]]
      constructor
      · intro h
        have h2 := (ihr anc mid e).mp h
        exact ⟨by simp only [occF, List.mem_cons, List.mem_append]; exact Or.inr (Or.inr h2.1),
          h2.2.1, h2.2.2⟩
      · rintro ⟨hmem, hpef, hclean⟩
        simp only [occF, List.mem_cons, List.mem_append] at hmem
        rcases hmem with hmem | hmem | hmem
        · have he : e = ⟨i, t, a⟩ := congrArg Prod.snd hmem
          rw [he] at hpef
          rw [hpef] at hpe
          cases hpe
        · obtain ⟨mid2, hm⟩ := occF_shape cs (⟨i, t, a⟩ :: anc) _ e hmem
          have hmid := mid_of_append_cons hm
          have : p ⟨i, t, a⟩ = false := hclean _ (by simp [hmid])
          rw [this] at hpe
          cases hpe
        · exact (ihr anc mid e).mpr ⟨hmem, hpef, hclean⟩
    · have hpe' : p ⟨i, t, a⟩ = false := by
        cases h : p ⟨i, t, a⟩
        · rfl
        · exact absurd h hpe
      rw [show pruneF p (.elem i t a cs r) =
          .elem i t a (pruneF p cs) (pruneF p r) by simp [pruneF, hpe']]
      simp only [occF, List.mem_cons, List.mem_append]
      constructor
      · rintro (h | h | h)
        · have hch : mid ++ anc = anc := congrArg Prod.fst h
          have hmide : mid = [] := by
            have := congrArg List.length hch
            simp at this
            exact this
          have he : e = ⟨i, t, a⟩ := congrArg Prod.snd h
          exact ⟨Or.inl h, by rw [he]; exact hpe', by rw [hmide]; intro a ha; cases ha⟩
        · obtain ⟨mid2, hm⟩ := occF_shape (pruneF p cs) (⟨i, t, a⟩ :: anc) _ e h
          have hmid := mid_of_append_cons hm
          rw [hm] at h
          have h2 := (ihc (⟨i, t, a⟩ :: anc) mid2 e).mp h
          refine ⟨Or.inr (Or.inl (by rw [hm]; exact h2.1)), h2.2.1, ?_⟩
          intro x hx
          rw [hmid] at hx
          rcases List.mem_append.mp hx with hx | hx
          · exact h2.2.2 x hx
          · rw [List.mem_singleton.mp hx]
            exact hpe'
        · have h2 := (ihr anc mid e).mp h
          exact ⟨Or.inr (Or.inr h2.1), h2.2.1, h2.2.2⟩
      · rintro ⟨hmem | hmem | hmem, hpef, hclean⟩
        · exact Or.inl hmem
        · obtain ⟨mid2, hm⟩ := occF_shape cs (⟨i, t, a⟩ :: anc) _ e hmem
          have hmid := mid_of_append_cons hm
          rw [hm] at hmem ⊢
          refine Or.inr (Or.inl ((ihc (⟨i, t, a⟩ :: anc) mid2 e).mpr ⟨hmem, hpef, ?_⟩))
          intro x hx
          exact hclean x (by simp [hmid, hx])
        · exact Or.inr (Or.inr ((ihr anc mid e).mpr ⟨hmem, hpef, hclean⟩))

theorem occF_foldl_pruneF (P : String → EInfo → Bool) :
    ∀ (sels : List String) (f : IForest) (anc mid : List EInfo) (e : EInfo),
      ((mid ++ anc, e) ∈ occF anc (sels.foldl (fun g sel => pruneF (P sel) g) f)) ↔
        ((mid ++ anc, e) ∈ occF anc f ∧
          ∀ sel ∈ sels, P sel e = false ∧ ∀ a ∈ mid, P sel a = false) := by
  intro sels
  induction sels with
  | nil => intro f anc mid e; simp
  | cons s rest ih =>
    intro f anc mid e
    rw [List.foldl_cons, ih (pruneF (P s) f) anc mid e]
    rw [occF_pruneF (P s) f anc mid e]
    constructor
    · rintro ⟨⟨hmem, hpe, hclean⟩, hrest⟩
      refine ⟨hmem, ?_⟩
      intro sel hsel
      rcases List.mem_cons.mp hsel with hsel | hsel
      · rw [hsel]; exact ⟨hpe, hclean⟩
      · exact hrest sel hsel
    · rintro ⟨hmem, hall⟩
      have hs := hall s (List.mem_cons_self s rest)
      exact ⟨⟨hmem, hs.1, hs.2⟩, fun sel hsel => hall sel (List.mem_cons_of_mem s hsel)⟩

theorem occ_chain_mem (f : IForest) : ∀ (anc ch : List EInfo) (e a : EInfo)
    (pre post : List EInfo), (ch, e) ∈ occF anc f → ch = pre ++ a :: post →
    ((post, a) ∈ occF anc f ∨ ∃ pre2, anc = pre2 ++ a :: post) := by
  induction f with
  | nil => intro anc ch e a pre post h _; simp [occF] at h
  | text s r ih => intro anc ch e a pre post h hch; exact ih anc ch e a pre post h hch
  | elem i t at_ cs r ihc ihr =>
    intro anc ch e a pre post h hch
    simp only [occF, List.mem_cons, List.mem_append] at h
    rcases h with h | h | h
    · have : ch = anc := congrArg Prod.fst h
      exact Or.inr ⟨pre, by rw [← this, hch]⟩
    · rcases ihc (⟨i, t, at_⟩ :: anc) ch e a pre post h hch with h2 | ⟨pre2, hpre2⟩
      · exact Or.inl (by simp only [occF, List.mem_cons, List.mem_append]; exact Or.inr (Or.inl h2))
      · cases pre2 with
        | nil =>
          simp only [List.nil_append, List.cons.injEq] at hpre2
          refine Or.inl ?_
          simp only [occF, List.mem_cons, List.mem_append]
          exact Or.inl (by rw [← hpre2.2, hpre2.1])
        | cons x pre2' =>
          simp only [List.cons_append, List.cons.injEq] at hpre2
          exact Or.inr ⟨pre2', hpre2.2⟩
    · rcases ihr anc ch e a pre post h hch with h2 | h2
      · exact Or.inl (by simp only [occF, List.mem_cons, List.mem_append]; exact Or.inr (Or.inr h2))
      · exact Or.inr h2

/-! ## Identity uniqueness and the protected set (for C8) -/

theorem occ_id_unique {doc : IElem}
    (hN : ((occDoc doc).map fun q => q.2.id).Nodup) :
    ∀ p ∈ occDoc doc, ∀ q ∈ occDoc doc, p.2.id = q.2.id → p = q := by
  intro p hp q hq h
  exact List.inj_on_of_nodup_map hN hp hq h

theorem occ_tail_mem {doc : IElem} {ch : List EInfo} {e : EInfo}
    (h : (ch, e) ∈ occF [doc.info] doc.children) : (ch, e) ∈ occDoc doc :=
  List.mem_cons_of_mem _ h

theorem occ_suffix {doc : IElem} {mid : List EInfo} {e : EInfo}
    (hocc : (mid ++ [doc.info], e) ∈ occF [doc.info] doc.children)
    {s t : List EInfo} {a : EInfo} (hsplit : mid = s ++ a :: t) :
    (t ++ [doc.info], a) ∈ occF [doc.info] doc.children := by
  have hch : mid ++ [doc.info] = s ++ a :: (t ++ [doc.info]) := by
    simp [hsplit, List.append_assoc]
  rcases occ_chain_mem doc.children [doc.info] (mid ++ [doc.info]) e a s (t ++ [doc.info])
      hocc hch with h | ⟨pre2, hpre2⟩
  · exact h
  · exfalso
    have := congrArg List.length hpre2
    simp at this
    omega

theorem mem_protectedIds {doc : IElem} {x : Nat} :
    x ∈ protectedIds doc ↔
      ∃ chm m, (chm, m) ∈ occDoc doc ∧ matchesAnyContent m = true ∧
        (x = m.id ∨ x ∈ chm.dropLast.map EInfo.id) := by
  unfold protectedIds
  rw [List.mem_flatMap]
  constructor
  · rintro ⟨p, hp, hx⟩
    by_cases hc : matchesAnyContent p.2 = true
    · rw [if_pos hc] at hx
      rcases List.mem_cons.mp hx with hx | hx
      · exact ⟨p.1, p.2, hp, hc, Or.inl hx⟩
      · exact ⟨p.1, p.2, hp, hc, Or.inr hx⟩
    · rw [if_neg hc] at hx
      cases hx
  · rintro ⟨chm, m, hmem, hc, hx⟩
    refine ⟨(chm, m), hmem, ?_⟩
    rw [if_pos hc]
    rcases hx with hx | hx
    · exact List.mem_cons.mpr (Or.inl hx)
    · exact List.mem_cons.mpr (Or.inr hx)

theorem contains_iff_mem_nat {l : List Nat} {a : Nat} : l.contains a = true ↔ a ∈ l := by
  simp [List.contains, List.elem_iff]

theorem isAncSelfIn_iff {doc : IElem} {c eid : Nat} :
    isAncSelfIn doc c eid = true ↔
      ∃ chx x, (chx, x) ∈ occDoc doc ∧ x.id = eid ∧
        (c = eid ∨ c ∈ chx.map EInfo.id) := by
  unfold isAncSelfIn
  rw [List.any_eq_true]
  constructor
  · rintro ⟨p, hp, hcond⟩
    simp only [Bool.and_eq_true, beq_iff_eq, Bool.or_eq_true, contains_iff_mem_nat] at hcond
    exact ⟨p.1, p.2, hp, hcond.1, hcond.2⟩
  · rintro ⟨chx, x, hmem, hid, hor⟩
    refine ⟨(chx, x), hmem, ?_⟩
    simp only [Bool.and_eq_true, beq_iff_eq, Bool.or_eq_true, contains_iff_mem_nat]
    exact ⟨hid, hor⟩

theorem protFreeB_eq_false_iff {doc : IElem} {prot : List Nat} {e : EInfo} :
    protFreeB doc prot e = false ↔
      (e.id ∈ prot ∨ ∃ c ∈ prot, isAncSelfIn doc c e.id = true) := by
  unfold protFreeB
  simp [contains_iff_mem_nat, List.any_eq_true]
  exact or_iff_not_imp_left.symm

/-- Ancestor closure of the protected set: every ancestor of a
protected node (as listed in its occurrence chain, the document root
excluded) is protected too. -/
theorem prot_up {doc : IElem}
    (hN : ((occDoc doc).map fun q => q.2.id).Nodup)
    {midx : List EInfo} {x : EInfo}
    (hocc : (midx ++ [doc.info], x) ∈ occF [doc.info] doc.children)
    (hx : x.id ∈ protectedIds doc) :
    ∀ a ∈ midx, a.id ∈ protectedIds doc := by
  intro a ha
  obtain ⟨chm, m, hmem, hc, hor⟩ := mem_protectedIds.mp hx
  rcases hor with hor | hor
  · have heq := occ_id_unique hN (chm, m) hmem (midx ++ [doc.info], x)
      (occ_tail_mem hocc) hor.symm
    have hchm : chm = midx ++ [doc.info] := congrArg Prod.fst heq
    refine mem_protectedIds.mpr ⟨chm, m, hmem, hc, Or.inr ?_⟩
    rw [hchm, List.dropLast_concat]
    exact List.mem_map.mpr ⟨a, ha, rfl⟩
  · obtain ⟨b, hb, hbid⟩ := List.mem_map.mp hor
    rcases List.mem_cons.mp hmem with hroot | hmem2
    · have : chm = [] := by
        have := congrArg Prod.fst hroot
        simpa using this
      rw [this] at hb
      simp at hb
    · obtain ⟨midm, hshape⟩ := occF_shape doc.children [doc.info] chm m hmem2
      have hdl : chm.dropLast = midm := by rw [hshape, List.dropLast_concat]
      rw [hdl] at hb
      obtain ⟨s, t, hst⟩ := List.append_of_mem hb
      rw [hshape] at hmem2
      have hbocc := occ_suffix hmem2 hst
      have heq := occ_id_unique hN (t ++ [doc.info], b) (occ_tail_mem hbocc)
        (midx ++ [doc.info], x) (occ_tail_mem hocc) (by rw [hbid])
      have ht : t = midx := by
        have := congrArg Prod.fst heq
        exact (List.append_inj' this rfl).1
      refine mem_protectedIds.mpr ⟨chm, m, hmem, hc, Or.inr ?_⟩
      rw [hdl, hst, ht]
      exact List.mem_map.mpr ⟨a, by simp [ha], rfl⟩

/-- If an element is protected (in the set or contained in a member),
so is every ancestor on its chain: protected nodes never lose an
ancestor to the removal pass. -/
theorem protFree_anc_closed {doc : IElem}
    (hN : ((occDoc doc).map fun q => q.2.id).Nodup)
    {mid : List EInfo} {e : EInfo}
    (hocc : (mid ++ [doc.info], e) ∈ occF [doc.info] doc.children)
    (hpf : protFreeB doc (protectedIds doc) e = false) :
    ∀ a ∈ mid, protFreeB doc (protectedIds doc) a = false := by
  intro a ha
  obtain ⟨s, t, hst⟩ := List.append_of_mem ha
  have haocc := occ_suffix hocc hst
  rcases protFreeB_eq_false_iff.mp hpf with hmem | ⟨c, hcprot, hanc⟩
  · exact protFreeB_eq_false_iff.mpr (Or.inl (prot_up hN hocc hmem a ha))
  · obtain ⟨chx, x, hxmem, hxid, hor⟩ := isAncSelfIn_iff.mp hanc
    have heq := occ_id_unique hN (chx, x) hxmem (mid ++ [doc.info], e)
      (occ_tail_mem hocc) (by rw [hxid])
    have hchx : chx = mid ++ [doc.info] := congrArg Prod.fst heq
    rcases hor with hc | hc
    · rw [hc] at hcprot
      exact protFreeB_eq_false_iff.mpr (Or.inl (prot_up hN hocc hcprot a ha))
    · rw [hchx] at hc
      obtain ⟨b, hb, hbid⟩ := List.mem_map.mp hc
      rcases List.mem_append.mp hb with hbmid | hbroot
      · rw [hst] at hbmid
        rcases List.mem_append.mp hbmid with hbs | hbat
        · obtain ⟨s1, s2, hs12⟩ := List.append_of_mem hbs
          have hsplit2 : mid = s1 ++ b :: (s2 ++ a :: t) := by
            rw [hst, hs12]
            simp [List.append_assoc]
          have hbocc := occ_suffix hocc hsplit2
          have hbprot : b.id ∈ protectedIds doc := by rw [hbid]; exact hcprot
          exact protFreeB_eq_false_iff.mpr
            (Or.inl (prot_up hN hbocc hbprot a (by simp)))
        · rcases List.mem_cons.mp hbat with hba | hbt
          · refine protFreeB_eq_false_iff.mpr (Or.inr ⟨c, hcprot, ?_⟩)
            refine isAncSelfIn_iff.mpr
              ⟨t ++ [doc.info], a, occ_tail_mem haocc, rfl, Or.inl ?_⟩
            rw [← hbid, hba]
          · refine protFreeB_eq_false_iff.mpr (Or.inr ⟨c, hcprot, ?_⟩)
            refine isAncSelfIn_iff.mpr
              ⟨t ++ [doc.info], a, occ_tail_mem haocc, rfl, Or.inr ?_⟩
            rw [← hbid]
            exact List.mem_map.mpr ⟨b, by simp [hbt], rfl⟩
      · refine protFreeB_eq_false_iff.mpr (Or.inr ⟨c, hcprot, ?_⟩)
        refine isAncSelfIn_iff.mpr
          ⟨t ++ [doc.info], a, occ_tail_mem haocc, rfl, Or.inr ?_⟩
        rw [← hbid]
        exact List.mem_map.mpr ⟨b, by simp [List.mem_singleton.mp hbroot], rfl⟩

theorem cleanup_children_eq (doc : IElem) :
    (cleanupDocument doc).children =
      selectorsToRemove.foldl
        (fun g sel => pruneF (cleanupPred doc (protectedIds doc) sel) g)
        doc.children := by
  simp only [cleanupDocument]

/-- Survival through the whole cleanup fold: an occurrence survives iff
neither it nor any chain ancestor satisfies any pass's removal
condition. -/
theorem cleanup_survival {doc : IElem} {mid : List EInfo} {e : EInfo} :
    ((mid ++ [doc.info], e) ∈ occF [doc.info] (cleanupDocument doc).children) ↔
      ((mid ++ [doc.info], e) ∈ occF [doc.info] doc.children ∧
        ∀ sel ∈ selectorsToRemove,
          cleanupPred doc (protectedIds doc) sel e = false ∧
          ∀ a ∈ mid, cleanupPred doc (protectedIds doc) sel a = false) := by
  rw [cleanup_children_eq]
  exact occF_foldl_pruneF (cleanupPred doc (protectedIds doc)) selectorsToRemove
    doc.children [doc.info] mid e

theorem matchesAnyRemoval_iff {e : EInfo} :
    matchesAnyRemoval e = true ↔
      ∃ sel ∈ selectorsToRemove, matchesSelector sel e = true := by
  unfold matchesAnyRemoval
  rw [List.any_eq_true]

theorem protFreeB_eq_false_iff_bool {doc : IElem} {prot : List Nat} {e : EInfo} :
    protFreeB doc prot e = false ↔
      (prot.contains e.id = true ∨
        (prot.any fun c => isAncSelfIn doc c e.id) = true) := by
  unfold protFreeB
  cases h1 : prot.contains e.id <;>
    cases h2 : (prot.any fun c => isAncSelfIn doc c e.id) <;> simp [h1, h2]

theorem cleanupPred_false_of_protFree_false {doc : IElem} {prot : List Nat}
    {sel : String} {x : EInfo} (h : protFreeB doc prot x = false) :
    cleanupPred doc prot sel x = false := by
  unfold cleanupPred
  rw [h]
  simp

/-- Claim C8: for every element matched by a boilerplate-removal
selector, the cleanup pass removes it exactly when it is neither in the
protected set (`contentElements`: content-selector matches and all
their ancestors) nor contained in a protected element (first conjunct,
quantified over occurrences of any identity-indexed document); an
element matched by both a removal and a content selector is never
removed (second conjunct); and on the claim's own example the
boilerplate text is absent from the output while the article text is
present (last conjuncts — in the pipeline this absence is enforced by
`extractMainContent` selecting the `article`; the cleanup pass itself
leaves the protected-ancestor `body`'s subtree intact, consistent with
the claim's containment exception). -/
theorem c8_cleanup_protection :
    (∀ (doc : IElem) (mid : List EInfo) (e : EInfo),
      ((occDoc doc).map fun q => q.2.id).Nodup →
      (mid ++ [doc.info], e) ∈ occF [doc.info] doc.children →
      matchesAnyRemoval e = true →
      ((mid ++ [doc.info], e) ∈ occF [doc.info] (cleanupDocument doc).children ↔
        ((protectedIds doc).contains e.id = true ∨
          ((protectedIds doc).any fun c => isAncSelfIn doc c e.id) = true))) ∧
    (∀ (doc : IElem) (mid : List EInfo) (e : EInfo),
      ((occDoc doc).map fun q => q.2.id).Nodup →
      (mid ++ [doc.info], e) ∈ occF [doc.info] doc.children →
      matchesAnyContent e = true →
      (mid ++ [doc.info], e) ∈ occF [doc.info] (cleanupDocument doc).children) ∧
    strContains (htmlToMarkdown {} (fun _ => Option.none) c8Ex Option.none)
      "Real content" = true ∧
    strContains (htmlToMarkdown {} (fun _ => Option.none) c8Ex Option.none)
      "NavJunk" = false ∧
    strContains (htmlToMarkdown {} (fun _ => Option.none) c8Ex Option.none)
      "FootJunk" = false := by
  refine ⟨?_, ?_, by decide, by decide, by decide⟩
  · intro doc mid e hN hocc hrem
    rw [cleanup_survival, ← protFreeB_eq_false_iff_bool]
    constructor
    · rintro ⟨_, hall⟩
      obtain ⟨sel, hsel, hmatch⟩ := matchesAnyRemoval_iff.mp hrem
      have hp := (hall sel hsel).1
      unfold cleanupPred at hp
      rw [hmatch] at hp
      simpa using hp
    · intro hpf
      refine ⟨hocc, fun sel hsel => ⟨cleanupPred_false_of_protFree_false hpf,
        fun a ha => cleanupPred_false_of_protFree_false
          (protFree_anc_closed hN hocc hpf a ha)⟩⟩
  · intro doc mid e hN hocc hcont
    have hmem : e.id ∈ protectedIds doc :=
      mem_protectedIds.mpr ⟨mid ++ [doc.info], e, occ_tail_mem hocc, hcont, Or.inl rfl⟩
    have hpf : protFreeB doc (protectedIds doc) e = false :=
      protFreeB_eq_false_iff.mpr (Or.inl hmem)
    rw [cleanup_survival]
    exact ⟨hocc, fun sel hsel => ⟨cleanupPred_false_of_protFree_false hpf,
      fun a ha => cleanupPred_false_of_protFree_false
        (protFree_anc_closed hN hocc hpf a ha)⟩⟩

/-- Claim C8, witness: the survival characterization applied to the
`nav` element of the claim's example document.  The `article` match
protects `body` and `html`, the `nav` is contained in the protected
`body`, and it indeed survives the cleanup pass (its text is dropped
later, by main-content extraction). -/
theorem c8_witness :
    (((occDoc c8Doc).map fun q => q.2.id).Nodup) ∧
    ((([⟨3, "body", []⟩, ⟨1, "html", []⟩] : List EInfo) ++ [c8Doc.info],
        (⟨4, "nav", []⟩ : EInfo)) ∈ occF [c8Doc.info] c8Doc.children) ∧
    matchesAnyRemoval ⟨4, "nav", []⟩ = true ∧
    ((([⟨3, "body", []⟩, ⟨1, "html", []⟩] : List EInfo) ++ [c8Doc.info],
        (⟨4, "nav", []⟩ : EInfo)) ∈
          occF [c8Doc.info] (cleanupDocument c8Doc).children ↔
      ((protectedIds c8Doc).contains 4 = true ∨
        ((protectedIds c8Doc).any fun c => isAncSelfIn c8Doc c 4) = true)) :=
  ⟨by decide, by decide, by decide,
    c8_cleanup_protection.1 c8Doc ([⟨3, "body", []⟩, ⟨1, "html", []⟩] : List EInfo)
      ⟨4, "nav", []⟩ (by decide) (by decide) (by decide)⟩

end WebToMarkdown
